import Mathlib

/-!
# Spatial hashing grids: a shallow embedding

Two classes of the repository are embedded here.

* `InteractionMap.PointGrid` follows `src/interaction_map.cpp`: the bounded vertex grid with
  extents, shape, strides, a sorted permutation, a pivot table and the two box queries.
* `Grid.PointGrid` follows `src/grid/point_grid.cpp`: the point grid over an externally
  supplied specification and sparse bucket index, with the symmetric pair traversal.

Conventions: `real_t` is `ℚ` (exact arithmetic), `fixed_t`, `hash_t` are `ℤ` (no overflow),
`index_t` is `ℕ` where it counts or indexes and `ℤ` where the value `-1` is meaningful.
A traversal taking a callback `body` is embedded as the list of arguments handed to `body`,
in call order. A constructor that may throw returns `Except String _`.
-/

namespace InteractionMap

/-! ## Types of `PointGrid<real_t, fixed_t, NDim>` -/

/-- The type `vector_t`: one real per axis. -/
abbrev vector_t (n : ℕ) := Fin n → ℚ

/-- The type `cell_t`: one integer cell coordinate per axis. -/
abbrev cell_t (n : ℕ) := Fin n → ℤ

/-- The type `strides_t`: one hash stride per axis. -/
abbrev strides_t (n : ℕ) := Fin n → ℤ

/-- The type `box_t`: row 0 is the lower corner, row 1 the upper corner. -/
structure box_t (n : ℕ) where
  /-- Row 0 of the box. -/
  row0 : vector_t n
  /-- Row 1 of the box. -/
  row1 : vector_t n

instance box_t.decEq {n : ℕ} : DecidableEq (box_t n) := fun a b =>
  decidable_of_iff (a.row0 = b.row0 ∧ a.row1 = b.row1)
    ⟨fun h => by cases a; cases b; simp_all, fun h => by subst h; simp⟩

/-- The conversion `cast<fixed_t>()` of a real to an integer: rounding towards zero. -/
def cast_fixed (x : ℚ) : ℤ := if 0 ≤ x then ⌊x⌋ else ⌈x⌉

/-- The range `irange(first, last)` over `index_t`: `first, first+1, ..., last-1`. -/
def irange (first last : ℕ) : List ℕ := List.range' first (last - first)

/-- The range `irange(first, last)` over `fixed_t`: `first, first+1, ..., last-1`. -/
def irange_fixed (first last : ℤ) : List ℤ :=
  (List.range (last - first).toNat).map fun k => first + (k : ℤ)

/-- The adaptor `adjacent_filtered(pred)` after its first element: walking the underlying
range, an element is kept when `pred` holds between its immediate predecessor and itself. -/
def adjacent_skip {α : Type} (pred : α → α → Bool) : α → List α → List α
  | _, [] => []
  | prev, b :: l => if pred prev b then b :: adjacent_skip pred b l else adjacent_skip pred b l

/-- The adaptor `adjacent_filtered(pred)`: the first element is always kept, every later one
is kept when `pred(previous, current)` holds for its predecessor in the underlying range. -/
def adjacent_filtered {α : Type} (pred : α → α → Bool) : List α → List α
  | [] => []
  | a :: l => a :: adjacent_skip pred a l

/-- The algorithm `boost::sort(range, comp)`. The library routine is an insertion sort on
short ranges; it is embedded as insertion sort throughout. The results about `permutation`
below use only that the output is a rearrangement of the input. -/
def sort {α : Type} (comp : α → α → Bool) (l : List α) : List α :=
  l.insertionSort fun a b => comp b a = false

/-- Modelled from the spec: the container `HashMap<cell_t, index_t, NDim>` of `maps.cpp`,
which is not among the sources. It is built from a range of (key, value) pairs and looked up
by key; a key that is not present yields the "not present" bucket id `-1`, which
`indices_from_bucket` turns into the empty range. -/
structure HashMap (n : ℕ) where
  /-- The (cell, bucket) pairs the map was built from. -/
  entries : List (cell_t n × ℤ)

instance HashMap.decEq {n : ℕ} : DecidableEq (HashMap n) := fun a b =>
  decidable_of_iff (a.entries = b.entries)
    ⟨fun h => by cases a; cases b; simp_all, fun h => by subst h; simp⟩

/-- Modelled from the spec: the lookup `bucket_from_cell[cell]`, `-1` for an absent key. -/
def HashMap.get {n : ℕ} (m : HashMap n) (cell : cell_t n) : ℤ :=
  match m.entries.find? fun e => decide (e.1 = cell) with
  | some e => e.2
  | none => -1

/-! ## Construction -/

/-- The function `transform`: `(v - extents.row(0)) / lengthscale`. -/
def transform {n : ℕ} (extents : box_t n) (lengthscale : ℚ) (v : vector_t n) : vector_t n :=
  fun i => (v i - extents.row0 i) / lengthscale

/-- The function `cell_from_local_position`: componentwise `cast<fixed_t>()`. -/
def cell_from_local_position {n : ℕ} (v : vector_t n) : cell_t n := fun i => cast_fixed (v i)

/-- The function `cell_from_position`: quantise the transformed position. -/
def cell_from_position {n : ℕ} (extents : box_t n) (lengthscale : ℚ) (v : vector_t n) : cell_t n :=
  cell_from_local_position (transform extents lengthscale v)

/-- The function `hash_from_cell`: `(cell.cast<hash_t>() * strides).sum()`. -/
def hash_from_cell {n : ℕ} (strides : strides_t n) (cell : cell_t n) : ℤ :=
  ∑ i, cell i * strides i

/-- The function `init_extents`: the running componentwise minimum and maximum over all
positions. The source starts the fold at `+inf` / `-inf`; after the first point both rows
equal that point, so the fold is started there. For an empty array (where the source leaves
the infinities and the cast in `init_shape` has no defined value) both rows are `0`;
construction fails in `init_pivots` in that case whatever the extents. -/
def init_extents {n : ℕ} (position : List (vector_t n)) : box_t n :=
  match position with
  | [] => ⟨fun _ => 0, fun _ => 0⟩
  | p :: ps =>
    ps.foldl (fun e q => ⟨fun i => min (e.row0 i) (q i), fun i => max (e.row1 i) (q i)⟩) ⟨p, p⟩

/-- The function `init_shape`:
`transform(extents.row(1) - extents.row(0)).cast<fixed_t>() + 1`. -/
def init_shape {n : ℕ} (extents : box_t n) (lengthscale : ℚ) : cell_t n :=
  fun i => cast_fixed (transform extents lengthscale (fun j => extents.row1 j - extents.row0 j) i) + 1

/-- The loop of `init_strides`, read by index: `strides(0) = 1` and
`strides(i) = strides(i - 1) * shape(i - 1)`. -/
def stride_at {n : ℕ} (shape : cell_t n) : ℕ → ℤ
  | 0 => 1
  | k + 1 => stride_at shape k * (if h : k < n then shape ⟨k, h⟩ else 1)

/-- The function `init_strides`. -/
def init_strides {n : ℕ} (shape : cell_t n) : strides_t n := fun i => stride_at shape i.val

/-- The function `init_cells`: `cell_id[v] = cell_from_position(position[v])`. -/
def init_cells {n : ℕ} (position : List (vector_t n)) (extents : box_t n) (lengthscale : ℚ) :
    List (cell_t n) :=
  (irange 0 position.length).map fun v => cell_from_position extents lengthscale (position.getD v 0)

/-- The comparator `lex` of `init_permutation`:
`hash_from_cell(cell_id[r] - cell_id[l]) > 0`. -/
def lex {n : ℕ} (strides : strides_t n) (cell_id : List (cell_t n)) (l r : ℕ) : Bool :=
  decide (hash_from_cell strides (fun i => cell_id.getD r 0 i - cell_id.getD l 0 i) > 0)

/-- The function `init_permutation`: the identity order `0 .. n_points`, sorted by `lex`. -/
def init_permutation {n : ℕ} (n_points : ℕ) (strides : strides_t n) (cell_id : List (cell_t n)) :
    List ℕ :=
  sort (lex strides cell_id) (irange 0 n_points)

/-- The range `res` of `init_pivots`: the cells under the permutation, indexed from 0,
filtered to the positions whose cell differs from the one before, mapped to the index. -/
def pivot_candidates {n : ℕ} (cell_id : List (cell_t n)) (permutation : List ℕ) : List ℕ :=
  (adjacent_filtered (fun a b => decide (a.2 ≠ b.2))
    (permutation.map fun i => cell_id.getD i 0).enum).map fun i => i.1

/-- The function `init_pivots`: collect the run starts, throw when there are as many as
points, otherwise append `n_points`. -/
def init_pivots {n : ℕ} (n_points : ℕ) (cell_id : List (cell_t n)) (permutation : List ℕ) :
    Except String (List ℕ) :=
  let res := pivot_candidates cell_id permutation
  if res.length = n_points then
    .error "every vertex is in its own cell; lengthscale probably needs to go way up"
  else
    .ok (res ++ [n_points])

/-- The fields of `PointGrid<real_t, fixed_t, NDim>`. -/
structure PointGrid (n : ℕ) where
  /-- The positions. -/
  position : List (vector_t n)
  /-- The number of points. -/
  n_points : ℕ
  /-- The size of a virtual voxel. -/
  lengthscale : ℚ
  /-- The maximum extent of the point cloud. -/
  extents : box_t n
  /-- The number of virtual buckets in each direction. -/
  shape : cell_t n
  /-- The strides for ranking cells. -/
  strides : strides_t n
  /-- The cell coordinates a vertex resides in. -/
  cell_id : List (cell_t n)
  /-- The index array putting the vertices in sorted order. -/
  permutation : List ℕ
  /-- The boundaries between buckets as viewed under the permutation. -/
  pivots : List ℕ
  /-- The number of buckets. -/
  n_buckets : ℕ
  /-- The map from cell coordinates to bucket index. -/
  bucket_from_cell : HashMap n

instance PointGrid.decEq {n : ℕ} : DecidableEq (PointGrid n) := fun a b =>
  decidable_of_iff (a.position = b.position ∧ a.n_points = b.n_points ∧
      a.lengthscale = b.lengthscale ∧ a.extents = b.extents ∧ a.shape = b.shape ∧
      a.strides = b.strides ∧ a.cell_id = b.cell_id ∧ a.permutation = b.permutation ∧
      a.pivots = b.pivots ∧ a.n_buckets = b.n_buckets ∧ a.bucket_from_cell = b.bucket_from_cell)
    ⟨fun h => by cases a; cases b; simp_all, fun h => by subst h; simp⟩

/-- Equality of construction results is decidable. -/
instance decEqExcept {ε α : Type} [DecidableEq ε] [DecidableEq α] : DecidableEq (Except ε α)
  | .ok x, .ok y =>
    if h : x = y then isTrue (congrArg _ h) else isFalse fun h1 => h (Except.ok.inj h1)
  | .error x, .error y =>
    if h : x = y then isTrue (congrArg _ h) else isFalse fun h1 => h (Except.error.inj h1)
  | .ok _, .error _ => isFalse fun h => Except.noConfusion h
  | .error _, .ok _ => isFalse fun h => Except.noConfusion h

namespace PointGrid

/-- The constructor `PointGrid(position, lengthscale)`: the member initialisers in
declaration order; the only throwing one is `init_pivots`. -/
def construct {n : ℕ} (position : List (vector_t n)) (lengthscale : ℚ) : Except String (PointGrid n) :=
  let n_points := position.length
  let extents := init_extents position
  let shape := init_shape extents lengthscale
  let strides := init_strides shape
  let cell_id := init_cells position extents lengthscale
  let permutation := init_permutation n_points strides cell_id
  match init_pivots n_points cell_id permutation with
  | .error e => .error e
  | .ok pivots =>
    let n_buckets := pivots.length - 1
    .ok {
      position := position
      n_points := n_points
      lengthscale := lengthscale
      extents := extents
      shape := shape
      strides := strides
      cell_id := cell_id
      permutation := permutation
      pivots := pivots
      n_buckets := n_buckets
      bucket_from_cell :=
        ⟨(irange 0 n_buckets).map fun b =>
          (cell_id.getD (permutation.getD (pivots.getD b 0) 0) 0, (b : ℤ))⟩ }

variable {n : ℕ}

/-- The method `cell_from_bucket`: `cell_id[permutation[pivots[b]]]`. -/
def cell_from_bucket (g : PointGrid n) (b : ℕ) : cell_t n :=
  g.cell_id.getD (g.permutation.getD (g.pivots.getD b 0) 0) 0

/-- The method `indices_from_bucket`: empty for `-1`, else `pivots[b] .. pivots[b+1]`. -/
def indices_from_bucket (g : PointGrid n) (b : ℤ) : List ℕ :=
  if b = -1 then irange 0 0 else irange (g.pivots.getD b.toNat 0) (g.pivots.getD (b.toNat + 1) 0)

/-- The method `indices_from_cell`. -/
def indices_from_cell (g : PointGrid n) (cell : cell_t n) : List ℕ :=
  g.indices_from_bucket (g.bucket_from_cell.get cell)

/-- The method `vertices_from_cell`: the indices of the cell seen through the permutation. -/
def vertices_from_cell (g : PointGrid n) (cell : cell_t n) : List ℕ :=
  (g.indices_from_cell cell).map fun i => g.permutation.getD i 0

/-- The method `for_each_vertex_in_cell`: the vertices handed to `body`. -/
def for_each_vertex_in_cell (g : PointGrid n) (cell : cell_t n) : List ℕ :=
  g.vertices_from_cell cell

/-- The method `for_each_cell`: the cells handed to `body`, bucket by bucket. -/
def for_each_cell (g : PointGrid n) : List (cell_t n) :=
  (irange 0 g.n_buckets).map fun b => g.cell_from_bucket b

/-- The test `in_box` of both box queries: no coordinate below row 0 or above row 1. -/
def in_box (g : PointGrid n) (box : box_t n) (v : ℕ) : Bool :=
  !(decide (∃ i, g.position.getD v 0 i < box.row0 i) ||
    decide (∃ i, g.position.getD v 0 i > box.row1 i))

/-- The method `for_each_vertex_in_bounding_box_naive`: the vertices handed to `body`. -/
def for_each_vertex_in_bounding_box_naive (g : PointGrid n) (box : box_t n) : List ℕ :=
  if decide (∃ i, box.row0 i > g.extents.row1 i) || decide (∃ i, box.row1 i < g.extents.row0 i)
  then []
  else (irange 0 g.n_points).filter fun v => g.in_box box v

/-- The method `for_each_vertex_in_bounding_box` (three axes): the vertices handed to
`body`. -/
def for_each_vertex_in_bounding_box (g : PointGrid 3) (box : box_t 3) : List ℕ :=
  let lmin := transform g.extents g.lengthscale box.row0
  let lmax := transform g.extents g.lengthscale box.row1
  if decide (∃ i, max (lmin i) 0 > min (lmax i) (g.shape i : ℚ)) then []
  else
    let lb : cell_t 3 := fun i => max (cell_from_local_position lmin i) 0
    let ub : cell_t 3 := fun i => min (cell_from_local_position lmax i + 1) (g.shape i)
    (irange_fixed (lb 0) (ub 0)).flatMap fun x =>
      (irange_fixed (lb 1) (ub 1)).flatMap fun y =>
        (irange_fixed (lb 2) (ub 2)).flatMap fun z =>
          (g.vertices_from_cell ![x, y, z]).filter fun v => g.in_box box v

end PointGrid

/-- The number of runs of equal cells met when walking `cell_id` under `permutation`:
the length of the cell sequence with consecutive repetitions removed. -/
def n_runs {n : ℕ} (cell_id : List (cell_t n)) (permutation : List ℕ) : ℕ :=
  ((permutation.map fun i => cell_id.getD i 0).destutter (· ≠ ·)).length

/-- The cell sequence and permutation that the constructor hands to `init_pivots`. -/
def sorted_cells {n : ℕ} (position : List (vector_t n)) (lengthscale : ℚ) :
    List (cell_t n) × List ℕ :=
  let extents := init_extents position
  let cell_id := init_cells position extents lengthscale
  (cell_id, init_permutation position.length (init_strides (init_shape extents lengthscale)) cell_id)

/-! ## Concrete point sets -/

/-- Four points in the plane `z = 0`: three near the origin, one far away. -/
def sample_points : List (vector_t 3) :=
  [![0, 0, 0], ![1 / 2, 0, 0], ![0, 1 / 2, 0], ![10, 10, 0]]

/-- The grid over `sample_points` with lengthscale `1`. -/
def sample_grid : PointGrid 3 where
  position := sample_points
  n_points := 4
  lengthscale := 1
  extents := ⟨![0, 0, 0], ![10, 10, 0]⟩
  shape := ![11, 11, 1]
  strides := ![1, 11, 121]
  cell_id := [![0, 0, 0], ![0, 0, 0], ![0, 0, 0], ![10, 10, 0]]
  permutation := [0, 1, 2, 3]
  pivots := [0, 3, 4]
  n_buckets := 2
  bucket_from_cell := ⟨[(![0, 0, 0], 0), (![10, 10, 0], 1)]⟩

/-- Two points half a unit apart. -/
def close_points : List (vector_t 3) := [![0, 0, 0], ![1 / 2, 0, 0]]

/-- The grid over `close_points` with lengthscale `-1`. -/
def negative_grid : PointGrid 3 where
  position := close_points
  n_points := 2
  lengthscale := -1
  extents := ⟨![0, 0, 0], ![1 / 2, 0, 0]⟩
  shape := ![1, 1, 1]
  strides := ![1, 1, 1]
  cell_id := [![0, 0, 0], ![0, 0, 0]]
  permutation := [0, 1]
  pivots := [0, 2]
  n_buckets := 1
  bucket_from_cell := ⟨[(![0, 0, 0], 0)]⟩

/-- Two points whose smallest first coordinate is `2`. -/
def shifted_points : List (vector_t 3) := [![2, 0, 0], ![5 / 2, 0, 0]]

/-- The grid over `shifted_points` with lengthscale `1`. -/
def shifted_grid : PointGrid 3 where
  position := shifted_points
  n_points := 2
  lengthscale := 1
  extents := ⟨![2, 0, 0], ![5 / 2, 0, 0]⟩
  shape := ![0, 1, 1]
  strides := ![1, 0, 0]
  cell_id := [![0, 0, 0], ![0, 0, 0]]
  permutation := [0, 1]
  pivots := [0, 2]
  n_buckets := 1
  bucket_from_cell := ⟨[(![0, 0, 0], 0)]⟩

/-- A box holding both `shifted_points`. -/
def shifted_box : box_t 3 := ⟨![2, 0, 0], ![3, 0, 0]⟩

/-- Four points whose smallest first coordinate is `1`: three at `(2, 0, 0)` and one at
`(1, 1, 0)` in second place. -/
def mixed_points : List (vector_t 3) := [![2, 0, 0], ![1, 1, 0], ![2, 0, 0], ![2, 0, 0]]

/-- The grid over `mixed_points` with lengthscale `1`. -/
def mixed_grid : PointGrid 3 where
  position := mixed_points
  n_points := 4
  lengthscale := 1
  extents := ⟨![1, 0, 0], ![2, 1, 0]⟩
  shape := ![1, 2, 1]
  strides := ![1, 1, 2]
  cell_id := [![1, 0, 0], ![0, 1, 0], ![1, 0, 0], ![1, 0, 0]]
  permutation := [0, 1, 2, 3]
  pivots := [0, 1, 2, 4]
  n_buckets := 3
  bucket_from_cell := ⟨[(![1, 0, 0], 0), (![0, 1, 0], 1), (![1, 0, 0], 2)]⟩

namespace PointGrid

/-- The relations between the fields of a grid that the constructor returned for
`position` and `lengthscale`. -/
structure Built {n : ℕ} (position : List (vector_t n)) (lengthscale : ℚ) (g : PointGrid n) :
    Prop where
  position_eq : g.position = position
  n_points_eq : g.n_points = position.length
  lengthscale_eq : g.lengthscale = lengthscale
  extents_eq : g.extents = init_extents position
  shape_eq : g.shape = init_shape g.extents lengthscale
  strides_eq : g.strides = init_strides g.shape
  cell_id_eq : g.cell_id = init_cells position g.extents lengthscale
  permutation_eq : g.permutation = init_permutation g.n_points g.strides g.cell_id
  candidates_ne : (pivot_candidates g.cell_id g.permutation).length ≠ g.n_points
  pivots_eq : g.pivots = pivot_candidates g.cell_id g.permutation ++ [g.n_points]
  n_buckets_eq : g.n_buckets = g.pivots.length - 1
  bucket_from_cell_eq : g.bucket_from_cell =
    ⟨(irange 0 g.n_buckets).map fun b => (g.cell_from_bucket b, (b : ℤ))⟩

end PointGrid

end InteractionMap

namespace Grid

/-! ## Types of `PointGrid<spec_t>` -/

/-- The type `spec_t::vector_t`. -/
abbrev vector_t (n : ℕ) := Fin n → ℚ

/-- The type `spec_t::cell_t`. -/
abbrev cell_t (n : ℕ) := Fin n → ℤ

/-- The members of `spec_t` that `PointGrid<spec_t>` uses. The class is declared in
`grid_spec.cpp`, which is not among the sources, so its three members are taken as given. -/
structure spec_t (n : ℕ) where
  /-- The interaction radius `spec.scale`. -/
  scale : ℚ
  /-- The method `spec.cell_from_position`. -/
  cell_from_position : vector_t n → cell_t n
  /-- The method `spec.hash_from_cell`. -/
  hash_from_cell : cell_t n → ℤ

/-- The members of `SparseGrid<fixed_t, index_t>` that `PointGrid<spec_t>` uses. The class is
declared in `sparse_grid.cpp`, which is not among the sources, so a grid is the triple of
what these members return. -/
structure SparseGrid where
  /-- The member `grid.permutation`. -/
  permutation : List ℕ
  /-- The result of `grid.unique_keys()`. -/
  unique_keys : List ℤ
  /-- The result of `grid.indices_from_key(key)`. -/
  indices_from_key : ℤ → List ℕ

/-- The two constructors of `SparseGrid` that `PointGrid<spec_t>` calls:
`grid(cell_id)` and `grid(cell_id, permutation)`. -/
structure SparseGridBuilder where
  /-- The constructor `SparseGrid(cell_id)`. -/
  from_cells : List ℤ → SparseGrid
  /-- The constructor `SparseGrid(cell_id, permutation)`. -/
  from_cells_and_permutation : List ℤ → List ℕ → SparseGrid

/-- The fields of `PointGrid<spec_t>`. -/
structure PointGrid (n : ℕ) where
  /-- The grid specification. -/
  spec : spec_t n
  /-- The positions. -/
  position : List (vector_t n)
  /-- The number of points. -/
  n_points : ℕ
  /-- The hash of the cell a point resides in. -/
  cell_id : List ℤ
  /-- The bucket index. -/
  grid : SparseGrid
  /-- The stencil. -/
  offsets : List ℤ

/-- The function `init_cells`:
`cell_id[v] = spec.hash_from_cell(spec.cell_from_position(position[v]))`. -/
def init_cells {n : ℕ} (spec : spec_t n) (position : List (vector_t n)) (n_points : ℕ) : List ℤ :=
  (List.range n_points).map fun v => spec.hash_from_cell (spec.cell_from_position (position.getD v 0))

namespace PointGrid

variable {n : ℕ}

/-- The constructor `PointGrid(spec, position)`; `offsets` is left empty. -/
def construct (sg : SparseGridBuilder) (spec : spec_t n) (position : List (vector_t n)) :
    PointGrid n :=
  let n_points := position.length
  let cell_id := init_cells spec position n_points
  { spec := spec, position := position, n_points := n_points, cell_id := cell_id,
    grid := sg.from_cells cell_id, offsets := [] }

/-- The constructor `PointGrid(spec, position, offsets)`. -/
def construct_with_offsets (sg : SparseGridBuilder) (spec : spec_t n)
    (position : List (vector_t n)) (offsets : List ℤ) : PointGrid n :=
  let n_points := position.length
  let cell_id := init_cells spec position n_points
  { spec := spec, position := position, n_points := n_points, cell_id := cell_id,
    grid := sg.from_cells cell_id, offsets := offsets }

/-- The constructor `PointGrid(spec, position, permutation, offsets)`. -/
def construct_with_permutation (sg : SparseGridBuilder) (spec : spec_t n)
    (position : List (vector_t n)) (permutation : List ℕ) (offsets : List ℤ) : PointGrid n :=
  let n_points := position.length
  let cell_id := init_cells spec position n_points
  { spec := spec, position := position, n_points := n_points, cell_id := cell_id,
    grid := sg.from_cells_and_permutation cell_id permutation, offsets := offsets }

/-- The method `update`: a new grid over `position`, seeded with this grid's permutation. -/
def update (sg : SparseGridBuilder) (g : PointGrid n) (position : List (vector_t n)) :
    PointGrid n :=
  construct_with_permutation sg g.spec position g.grid.permutation g.offsets

/-- The method `for_each_point_in_cell`: the points handed to `body`. -/
def for_each_point_in_cell (g : PointGrid n) (cell : ℤ) : List ℕ :=
  g.grid.indices_from_key cell

/-- The squared distance `d2 = (rp * rp).sum()` with `rp = position[i] - position[j]`. -/
def d2 (g : PointGrid n) (i j : ℕ) : ℚ :=
  ∑ k, (g.position.getD i 0 k - g.position.getD j 0 k) * (g.position.getD i 0 k - g.position.getD j 0 k)

/-- The lambda `wrapper` of `for_each_pair`: hands `(i, j, d2)` to `body` unless
`d2 > scale * scale`. -/
def wrapper (g : PointGrid n) (i j : ℕ) : List (ℕ × ℕ × ℚ) :=
  if g.d2 i j > g.spec.scale * g.spec.scale then [] else [(i, j, g.d2 i j)]

/-- The inner loop of the interaction within a bucket:
`for pj in bi: if (pi == pj) break; else wrapper(pi, pj)`. -/
def within_bucket (g : PointGrid n) (pi : ℕ) : List ℕ → List (ℕ × ℕ × ℚ)
  | [] => []
  | pj :: bi => if pi = pj then [] else g.wrapper pi pj ++ within_bucket g pi bi

/-- The method `for_each_pair`: the triples `(i, j, d2)` handed to `body`, in call order. -/
def for_each_pair (g : PointGrid n) : List (ℕ × ℕ × ℚ) :=
  g.grid.unique_keys.flatMap fun ci =>
    let bi := g.grid.indices_from_key ci
    (bi.flatMap fun pi => g.within_bucket pi bi) ++
      g.offsets.flatMap fun o =>
        let bj := g.grid.indices_from_key (ci + o)
        bj.flatMap fun pj => bi.flatMap fun pi => g.wrapper pi pj

/-- The method `get_pairs`: the rows `(i, j)` of the accepted pairs. -/
def get_pairs (g : PointGrid n) : List (ℕ × ℕ) :=
  g.for_each_pair.map fun t => (t.1, t.2.1)

end PointGrid

/-- Modelled from the spec: the bucket index built by the constructors of `SparseGrid` in
`sparse_grid.cpp`, which is not among the sources: "a grouping of point indices by hash
key", whose occupied keys are listed "each exactly once", whose lookup by key gives the
member points of that key (none for a key that is not present), and whose permutation lists
the points so that points sharing a key are contiguous. -/
def SparseGrid.of_cells (cell_id : List ℤ) : SparseGrid where
  permutation := cell_id.dedup.flatMap fun k =>
    (List.range cell_id.length).filter fun p => decide (cell_id.getD p 0 = k)
  unique_keys := cell_id.dedup
  indices_from_key := fun k =>
    (List.range cell_id.length).filter fun p => decide (cell_id.getD p 0 = k)

/-- Modelled from the spec: both constructors of `SparseGrid` produce the grouping of
`SparseGrid.of_cells`; a prior permutation is an ordering hint with no effect on it. -/
def SparseGridBuilder.reference : SparseGridBuilder where
  from_cells := SparseGrid.of_cells
  from_cells_and_permutation := fun cell_id _ => SparseGrid.of_cells cell_id

/-- The unordered pair of point indices of a triple handed to the callback. -/
def unordered_pair (t : ℕ × ℕ × ℚ) : Sym2 ℕ := s(t.1, t.2.1)

/-- A planar specification with unit cells: the cell of a position is its truncation, the
key of cell `(x, y)` is `x + 100 * y`, and the interaction radius is `1`. -/
def unit_spec : spec_t 2 where
  scale := 1
  cell_from_position := fun v i => InteractionMap.cast_fixed (v i / 1)
  hash_from_cell := fun c => c 0 + 100 * c 1

/-- The half stencil of `unit_spec`: the key deltas of the cell offsets
`(1, 0)`, `(-1, 1)`, `(0, 1)` and `(1, 1)`. -/
def unit_offsets : List ℤ := [1, 99, 100, 101]

/-- Four points in the plane, the first two on either side of the cell border `x = 1`. -/
def border_points : List (vector_t 2) := [![9 / 10, 0], ![11 / 10, 0], ![1 / 2, 1 / 2], ![3, 3]]

/-- The grid over `border_points` under `unit_spec` with the stencil `unit_offsets`. -/
def border_grid : PointGrid 2 :=
  PointGrid.construct_with_offsets SparseGridBuilder.reference unit_spec border_points unit_offsets

/-- The bucket index groups the points by key: `indices_from_key(k)` lists exactly the
points `p < n_points` with `cell_id[p] = k`, each once, and `unique_keys()` lists exactly
the keys of some point, each once. -/
def SparseGrid.Groups (grid : SparseGrid) (cell_id : List ℤ) (n_points : ℕ) : Prop :=
  (∀ k, (grid.indices_from_key k).Nodup ∧
    ∀ p, p ∈ grid.indices_from_key k ↔ p < n_points ∧ cell_id.getD p 0 = k) ∧
  grid.unique_keys.Nodup ∧
  ∀ k, k ∈ grid.unique_keys ↔ ∃ p, p < n_points ∧ cell_id.getD p 0 = k

/-- A half stencil: no zero delta, no repeated delta, never a delta together with its
negative. -/
def HalfStencil (offsets : List ℤ) : Prop :=
  0 ∉ offsets ∧ offsets.Nodup ∧ ∀ o ∈ offsets, -o ∉ offsets

/-- The stencil covers the grid: two points with different keys that lie within `scale` of
each other have the difference of their keys, in one direction or the other, among the
offsets. -/
def PointGrid.Covered {n : ℕ} (g : PointGrid n) : Prop :=
  ∀ i j, i < g.n_points → j < g.n_points → g.cell_id.getD i 0 ≠ g.cell_id.getD j 0 →
    g.d2 i j ≤ g.spec.scale * g.spec.scale →
    g.cell_id.getD j 0 - g.cell_id.getD i 0 ∈ g.offsets ∨
      g.cell_id.getD i 0 - g.cell_id.getD j 0 ∈ g.offsets

namespace PointGrid

variable {n : ℕ}

/-- The calls `wrapper(pi, pj)` made by the inner loop of the interaction within a bucket,
`for pj in bi: if (pi == pj) break; else wrapper(pi, pj)`, as the list of argument pairs. -/
def within_bucket_calls (pi : ℕ) : List ℕ → List (ℕ × ℕ)
  | [] => []
  | pj :: bi => if pi = pj then [] else (pi, pj) :: within_bucket_calls pi bi

/-- The calls `wrapper(pi, pj)` made by the interaction within a bucket `bi`,
`for pi in bi: for pj in bi: if (pi == pj) break; else wrapper(pi, pj)`. -/
def intra_bucket_calls (bi : List ℕ) : List (ℕ × ℕ) :=
  bi.flatMap fun pi => within_bucket_calls pi bi

/-- The candidate pairs of `for_each_pair`: all calls `wrapper(pi, pj)` it makes, in call
order, bucket by bucket: first the interaction within the bucket, then the neighbouring
buckets of the stencil. -/
def candidates (g : PointGrid n) : List (ℕ × ℕ) :=
  g.grid.unique_keys.flatMap fun ci =>
    let bi := g.grid.indices_from_key ci
    intra_bucket_calls bi ++
      g.offsets.flatMap fun o =>
        let bj := g.grid.indices_from_key (ci + o)
        bj.flatMap fun pj => bi.map fun pi => (pi, pj)

end PointGrid

/-- The four points of the example scenario: three within distance `1` of each other near
the origin and one at `(10, 10)`. -/
def plane_points : List (vector_t 2) := [![0, 0], ![1 / 2, 0], ![0, 1 / 2], ![10, 10]]

/-- The grid over `plane_points` under `unit_spec` with the stencil `unit_offsets`. -/
def plane_grid : PointGrid 2 :=
  PointGrid.construct_with_offsets SparseGridBuilder.reference unit_spec plane_points unit_offsets

end Grid

namespace InteractionMap

/-- The four points of the example scenario lifted to the plane `z = 1`. -/
def raised_points : List (vector_t 3) :=
  [![0, 0, 1], ![1 / 2, 0, 1], ![0, 1 / 2, 1], ![10, 10, 1]]

/-- The grid over `raised_points` with lengthscale `1`. -/
def raised_grid : PointGrid 3 where
  position := raised_points
  n_points := 4
  lengthscale := 1
  extents := ⟨![0, 0, 1], ![10, 10, 1]⟩
  shape := ![11, 11, 0]
  strides := ![1, 11, 121]
  cell_id := [![0, 0, 0], ![0, 0, 0], ![0, 0, 0], ![10, 10, 0]]
  permutation := [0, 1, 2, 3]
  pivots := [0, 3, 4]
  n_buckets := 2
  bucket_from_cell := ⟨[(![0, 0, 0], 0), (![10, 10, 0], 1)]⟩

/-- The box `[(0,0),(1,1)]` of the example scenario in the plane `z = 1`. -/
def raised_box : box_t 3 := ⟨![0, 0, 1], ![1, 1, 1]⟩

/-- The box `[(0,0),(1,1)]` of the example scenario in the plane `z = 0`. -/
def flat_box : box_t 3 := ⟨![0, 0, 0], ![1, 1, 0]⟩

end InteractionMap

namespace Grid

/-! ## Arrays by handle: the update path as a state change -/

/-- Modelled from the spec: what an `ndarray` refers to. The class is declared in
`numpy_boost/ndarray.cpp`, which is not among the sources; the spec has the point set
"owned externally and referenced" by the grid, so an array is a buffer of rows of reals
(`ndarray<vector_t>`), of hashes (`ndarray<fixed_t>`) or of indices (`ndarray<index_t>`)
reached through a handle. -/
inductive buffer_t (n : ℕ) where
  /-- A buffer of positions. -/
  | reals (rows : List (vector_t n))
  /-- A buffer of `fixed_t` values. -/
  | fixed (values : List ℤ)
  /-- A buffer of `index_t` values. -/
  | index (values : List ℕ)

/-- Modelled from the spec: the buffers alive at one moment; a handle is a position in this
list. Copying an `ndarray` (passing it by value, storing it in a member, taking a `view`)
copies the handle, not the buffer. -/
abbrev store_t (n : ℕ) := List (buffer_t n)

/-- Modelled from the spec: the allocation `ndarray<T>({...})`: a new buffer behind a new
handle; no existing handle refers to it. -/
def store_alloc {n : ℕ} (s : store_t n) (b : buffer_t n) : store_t n × ℕ :=
  (s ++ [b], s.length)

/-- The rows read through a handle of positions. -/
def store_reals {n : ℕ} (s : store_t n) (a : ℕ) : List (vector_t n) :=
  match s[a]? with
  | some (.reals rows) => rows
  | _ => []

/-- The values read through a handle of `fixed_t`. -/
def store_fixed {n : ℕ} (s : store_t n) (a : ℕ) : List ℤ :=
  match s[a]? with
  | some (.fixed values) => values
  | _ => []

/-- The assignment `array[v] = x` through a handle of `fixed_t`: only that entry of that
buffer changes. -/
def store_write_fixed {n : ℕ} (s : store_t n) (a v : ℕ) (x : ℤ) : store_t n :=
  match s[a]? with
  | some (.fixed values) => s.set a (.fixed (values.set v x))
  | _ => s

/-- The member of `SparseGrid<fixed_t, index_t>` that `update` reads: the handle of
`grid.permutation`. -/
structure SparseGridRef where
  /-- The handle of `grid.permutation`. -/
  permutation : ℕ

/-- The fields of `PointGrid<spec_t>` with its arrays held by handle. -/
structure PointGridRef (n : ℕ) where
  /-- The grid specification, held by value. -/
  spec : spec_t n
  /-- The handle of the positions. -/
  position : ℕ
  /-- The number of points. -/
  n_points : ℕ
  /-- The handle of the cell hashes. -/
  cell_id : ℕ
  /-- The bucket index. -/
  grid : SparseGridRef
  /-- The handle of the stencil. -/
  offsets : ℕ

/-- The constructor `SparseGrid(cell_id, permutation)` of the absent `sparse_grid.cpp`, as
a change of the store: it receives the two handles and returns the new store and the bucket
index. -/
abbrev sparse_grid_ctor (n : ℕ) := store_t n → ℕ → ℕ → store_t n × SparseGridRef

/-- Modelled from the spec: a constructor of `SparseGrid` that puts its own permutation,
the grouping of `SparseGrid.of_cells` over the hashes it is handed, into a new buffer and
takes the prior permutation as a hint only. -/
def sparse_grid_ctor.reference {n : ℕ} : sparse_grid_ctor n := fun s cell_id _ =>
  ((store_alloc s (.index (SparseGrid.of_cells (store_fixed s cell_id)).permutation)).1,
    ⟨(store_alloc s (.index (SparseGrid.of_cells (store_fixed s cell_id)).permutation)).2⟩)

namespace PointGridRef

variable {n : ℕ}

/-- The function `init_cells` on the store: allocate `cell_id` with `n_points` entries,
then assign `cell_id[v] = spec.hash_from_cell(spec.cell_from_position(position[v]))` for
`v` in `irange(0, n_points)`. -/
def init_cells (spec : spec_t n) (s : store_t n) (position n_points : ℕ) : store_t n × ℕ :=
  ((List.range n_points).foldl
      (fun t v => store_write_fixed t (store_alloc s (.fixed (List.replicate n_points 0))).2 v
        (spec.hash_from_cell (spec.cell_from_position ((store_reals t position).getD v 0))))
      (store_alloc s (.fixed (List.replicate n_points 0))).1,
    (store_alloc s (.fixed (List.replicate n_points 0))).2)

/-- The constructor `PointGrid(spec, position, permutation, offsets)` on the store: the
member initialisers in declaration order (`spec`, `position`, `n_points`, `cell_id`,
`grid`, `offsets`). -/
def construct_with_permutation (ctor : sparse_grid_ctor n) (spec : spec_t n) (s : store_t n)
    (position permutation offsets : ℕ) : store_t n × PointGridRef n :=
  ((ctor (init_cells spec s position (store_reals s position).length).1
      (init_cells spec s position (store_reals s position).length).2 permutation).1,
    { spec := spec
      position := position
      n_points := (store_reals s position).length
      cell_id := (init_cells spec s position (store_reals s position).length).2
      grid := (ctor (init_cells spec s position (store_reals s position).length).1
        (init_cells spec s position (store_reals s position).length).2 permutation).2
      offsets := offsets })

/-- The method `update` on the store:
`return self_t(spec, position, grid.permutation, offsets)`. -/
def update (ctor : sparse_grid_ctor n) (g : PointGridRef n) (s : store_t n) (position : ℕ) :
    store_t n × PointGridRef n :=
  construct_with_permutation ctor g.spec s position g.grid.permutation g.offsets

end PointGridRef

end Grid

/-! ## The bounded hash -/

namespace InteractionMap

theorem stride_at_succ {n : ℕ} (shape : cell_t (n + 1)) (k : ℕ) :
    stride_at shape (k + 1) = shape 0 * stride_at (Fin.tail shape) k := by
  induction k with
  | zero => simp [stride_at]
  | succ k ih =>
    rw [show stride_at shape (k + 1 + 1)
        = stride_at shape (k + 1) * (if h : k + 1 < n + 1 then shape ⟨k + 1, h⟩ else 1) from rfl,
      ih, show stride_at (Fin.tail shape) (k + 1)
        = stride_at (Fin.tail shape) k * (if h : k < n then Fin.tail shape ⟨k, h⟩ else 1) from rfl]
    by_cases h : k < n
    · have h1 : k + 1 < n + 1 := by omega
      simp only [h, h1, dif_pos, Fin.tail]
      have : (⟨k + 1, h1⟩ : Fin (n + 1)) = (⟨k, h⟩ : Fin n).succ := rfl
      rw [this]; ring
    · have h1 : ¬ (k + 1 < n + 1) := by omega
      simp only [h, h1, dif_neg, not_false_eq_true]
      ring

theorem hash_from_cell_succ {n : ℕ} (shape : cell_t (n + 1)) (a : cell_t (n + 1)) :
    hash_from_cell (init_strides shape) a
      = a 0 + shape 0 * hash_from_cell (init_strides (Fin.tail shape)) (Fin.tail a) := by
  unfold hash_from_cell init_strides
  rw [Fin.sum_univ_succ, Finset.mul_sum]
  congr 1
  · simp [stride_at]
  · refine Finset.sum_congr rfl fun i _ => ?_
    simp only [Fin.val_succ, stride_at_succ, Fin.tail]
    ring

theorem hash_from_cell_bounds {n : ℕ} (shape a : cell_t n)
    (ha : ∀ i, 0 ≤ a i ∧ a i < shape i) :
    0 ≤ hash_from_cell (init_strides shape) a ∧
      hash_from_cell (init_strides shape) a < ∏ i, shape i := by
  induction n with
  | zero => simp [hash_from_cell]
  | succ n ih =>
    rw [hash_from_cell_succ, Fin.prod_univ_succ]
    obtain ⟨h0, h1⟩ := ih (Fin.tail shape) (Fin.tail a) fun i => ha i.succ
    obtain ⟨a0, a1⟩ := ha 0
    have hP : (∏ i : Fin n, shape i.succ) = ∏ i, Fin.tail shape i := rfl
    rw [hP]
    constructor
    · have : 0 ≤ shape 0 * hash_from_cell (init_strides (Fin.tail shape)) (Fin.tail a) :=
        mul_nonneg (by omega) h0
      omega
    · nlinarith

theorem hash_from_cell_injective {n : ℕ} (shape a b : cell_t n)
    (ha : ∀ i, 0 ≤ a i ∧ a i < shape i) (hb : ∀ i, 0 ≤ b i ∧ b i < shape i)
    (h : hash_from_cell (init_strides shape) a = hash_from_cell (init_strides shape) b) :
    a = b := by
  induction n with
  | zero => funext i; exact i.elim0
  | succ n ih =>
    rw [hash_from_cell_succ, hash_from_cell_succ] at h
    obtain ⟨a0, a1⟩ := ha 0
    obtain ⟨b0, b1⟩ := hb 0
    have hmod := congrArg (fun x => x % shape 0) h
    simp only [Int.add_mul_emod_self_left] at hmod
    rw [Int.emod_eq_of_lt a0 a1, Int.emod_eq_of_lt b0 b1] at hmod
    rw [hmod] at h
    have hs : shape 0 ≠ 0 := by omega
    have ht : hash_from_cell (init_strides (Fin.tail shape)) (Fin.tail a)
        = hash_from_cell (init_strides (Fin.tail shape)) (Fin.tail b) :=
      mul_left_cancel₀ hs (add_left_cancel h)
    have := ih (Fin.tail shape) (Fin.tail a) (Fin.tail b) (fun i => ha i.succ)
      (fun i => hb i.succ) ht
    funext i
    refine Fin.cases hmod (fun j => ?_) i
    exact congrFun this j

/-- C9: with `strides = init_strides(shape)`, the hash `hash_from_cell` is injective on the
cells `a` with `0 <= a[i] < shape[i]` on every axis, and takes its values in
`[0, product of shape)`. -/
theorem C9_hash_from_cell_perfect {n : ℕ} (shape a b : cell_t n)
    (ha : ∀ i, 0 ≤ a i ∧ a i < shape i) (hb : ∀ i, 0 ≤ b i ∧ b i < shape i) :
    (init_strides shape = fun i => if i.val = 0 then 1 else
        init_strides shape ⟨i.val - 1, by omega⟩ * shape ⟨i.val - 1, by omega⟩) ∧
    (hash_from_cell (init_strides shape) a = hash_from_cell (init_strides shape) b → a = b) ∧
    0 ≤ hash_from_cell (init_strides shape) a ∧
    hash_from_cell (init_strides shape) a < ∏ i, shape i := by
  refine ⟨?_, hash_from_cell_injective shape a b ha hb, hash_from_cell_bounds shape a ha⟩
  funext i
  obtain ⟨k, hk⟩ := i
  cases k with
  | zero => simp [init_strides, stride_at]
  | succ k =>
    have : k < n := by omega
    simp [init_strides, stride_at, this]

/-- C9 at a concrete shape: the cells `(1, 2, 0)` and `(0, 1, 3)` of the shape `(2, 3, 4)`. -/
theorem C9_hash_from_cell_perfect_witness :
    (∀ i, 0 ≤ (![1, 2, 0] : cell_t 3) i ∧ (![1, 2, 0] : cell_t 3) i < (![2, 3, 4] : cell_t 3) i) ∧
    (∀ i, 0 ≤ (![0, 1, 3] : cell_t 3) i ∧ (![0, 1, 3] : cell_t 3) i < (![2, 3, 4] : cell_t 3) i) ∧
    (hash_from_cell (init_strides (![2, 3, 4] : cell_t 3)) ![1, 2, 0]
        = hash_from_cell (init_strides (![2, 3, 4] : cell_t 3)) ![0, 1, 3] →
      (![1, 2, 0] : cell_t 3) = ![0, 1, 3]) ∧
    0 ≤ hash_from_cell (init_strides (![2, 3, 4] : cell_t 3)) ![1, 2, 0] ∧
    hash_from_cell (init_strides (![2, 3, 4] : cell_t 3)) ![1, 2, 0]
      < ∏ i, (![2, 3, 4] : cell_t 3) i :=
  ⟨by decide, by decide,
    (C9_hash_from_cell_perfect ![2, 3, 4] ![1, 2, 0] ![0, 1, 3] (by decide) (by decide)).2⟩

end InteractionMap

/-! ## Permutation and pivot table -/

namespace InteractionMap

theorem irange_zero (m : ℕ) : irange 0 m = List.range m := by
  simp [irange, List.range_eq_range']

theorem irange_append {a b c : ℕ} (hab : a ≤ b) (hbc : b ≤ c) :
    irange a b ++ irange b c = irange a c := by
  unfold irange
  rw [show c - a = (c - b) + (b - a) by omega, ← List.range'_append_1,
    show a + (b - a) = b by omega]

theorem mem_irange {a b x : ℕ} : x ∈ irange a b ↔ a ≤ x ∧ x < b := by
  unfold irange
  rw [List.mem_range'_1]
  omega

theorem sort_perm {α : Type} (comp : α → α → Bool) (l : List α) : (sort comp l).Perm l :=
  List.perm_insertionSort _ l

theorem init_permutation_perm {n : ℕ} (n_points : ℕ) (strides : strides_t n)
    (cell_id : List (cell_t n)) :
    (init_permutation n_points strides cell_id).Perm (List.range n_points) := by
  unfold init_permutation
  rw [irange_zero]
  exact sort_perm _ _

theorem init_permutation_length {n : ℕ} (n_points : ℕ) (strides : strides_t n)
    (cell_id : List (cell_t n)) :
    (init_permutation n_points strides cell_id).length = n_points := by
  rw [(init_permutation_perm n_points strides cell_id).length_eq, List.length_range]

/-- The indices kept by `adjacent_skip` over an enumeration from `k` lie in
`[k, k + length)` and increase strictly. -/
theorem adjacent_skip_enumFrom {α : Type} (pred : ℕ × α → ℕ × α → Bool) :
    ∀ (l : List α) (prev : ℕ × α) (k : ℕ),
      (∀ x ∈ (adjacent_skip pred prev (l.enumFrom k)).map Prod.fst, k ≤ x ∧ x < k + l.length) ∧
      ((adjacent_skip pred prev (l.enumFrom k)).map Prod.fst).Sorted (· < ·) := by
  intro l
  induction l with
  | nil => intro prev k; simp [adjacent_skip]
  | cons b l ih =>
    intro prev k
    obtain ⟨h1, h2⟩ := ih (k, b) (k + 1)
    rw [List.enumFrom_cons, adjacent_skip]
    split
    · refine ⟨?_, ?_⟩
      · intro x hx
        rw [List.map_cons, List.mem_cons] at hx
        rcases hx with rfl | hx
        · simp
        · have := h1 x hx
          simp only [List.length_cons]
          omega
      · rw [List.map_cons, List.sorted_cons]
        refine ⟨fun x hx => ?_, h2⟩
        have := h1 x hx
        show k < x
        omega
    · refine ⟨fun x hx => ?_, h2⟩
      have := h1 x hx
      simp only [List.length_cons]
      omega

theorem pivot_candidates_nil {n : ℕ} (cell_id : List (cell_t n)) :
    pivot_candidates cell_id [] = [] := rfl

/-- For a non-empty permutation the run starts are `0` followed by a strictly increasing
list of positions in `[1, length)`. -/
theorem pivot_candidates_cons {n : ℕ} (cell_id : List (cell_t n)) (p : ℕ) (perm : List ℕ) :
    ∃ rest, pivot_candidates cell_id (p :: perm) = 0 :: rest ∧
      (∀ x ∈ rest, 1 ≤ x ∧ x < 1 + perm.length) ∧ rest.Sorted (· < ·) := by
  refine ⟨(adjacent_skip (fun a b : ℕ × cell_t n => decide (a.2 ≠ b.2)) (0, cell_id.getD p 0)
    ((perm.map fun i => cell_id.getD i 0).enumFrom 1)).map Prod.fst, rfl, ?_⟩
  have := adjacent_skip_enumFrom (fun a b : ℕ × cell_t n => decide (a.2 ≠ b.2))
    (perm.map fun i => cell_id.getD i 0) (0, cell_id.getD p 0) 1
  simpa using this

theorem pivot_candidates_sorted {n : ℕ} (cell_id : List (cell_t n)) (perm : List ℕ) :
    (pivot_candidates cell_id perm).Sorted (· < ·) := by
  cases perm with
  | nil => simp [pivot_candidates_nil]
  | cons p perm =>
    obtain ⟨rest, h, h1, h2⟩ := pivot_candidates_cons cell_id p perm
    rw [h, List.sorted_cons]
    exact ⟨fun x hx => by have := h1 x hx; omega, h2⟩

theorem pivot_candidates_lt {n : ℕ} (cell_id : List (cell_t n)) (perm : List ℕ) :
    ∀ x ∈ pivot_candidates cell_id perm, x < perm.length := by
  cases perm with
  | nil => simp [pivot_candidates_nil]
  | cons p perm =>
    obtain ⟨rest, h, h1, _⟩ := pivot_candidates_cons cell_id p perm
    intro x hx
    rw [h, List.mem_cons] at hx
    rcases hx with rfl | hx
    · simp
    · have := h1 x hx
      simp only [List.length_cons]
      omega

/-- The kept values of `adjacent_filtered` under "differs from the predecessor" are the
list with consecutive duplicates removed. -/
theorem adjacent_skip_destutter {α : Type} [DecidableEq α] :
    ∀ (l : List (ℕ × α)) (a : ℕ × α),
      (a :: adjacent_skip (fun x y => decide (x.2 ≠ y.2)) a l).map Prod.snd
        = List.destutter' (· ≠ ·) a.2 (l.map Prod.snd) := by
  intro l
  induction l with
  | nil => intro a; simp [adjacent_skip]
  | cons b l ih =>
    intro a
    rw [adjacent_skip, List.map_cons, List.map_cons, List.destutter'_cons]
    by_cases h : a.2 = b.2
    · have h1 : ¬ (a.2 ≠ b.2) := fun h2 => h2 h
      simp only [h1, decide_False, Bool.false_eq_true, if_false]
      have := ih b
      rw [List.map_cons] at this
      rw [h, ← this]
    · have h1 : a.2 ≠ b.2 := h
      simp only [h1, decide_True, if_true, ne_eq, not_false_eq_true]
      rw [← ih b]

/-- The number of run starts is the number of runs of equal cells under the permutation. -/
theorem pivot_candidates_length {n : ℕ} (cell_id : List (cell_t n)) (perm : List ℕ) :
    (pivot_candidates cell_id perm).length
      = ((perm.map fun i => cell_id.getD i 0).destutter (· ≠ ·)).length := by
  cases perm with
  | nil => simp [pivot_candidates_nil]
  | cons p perm =>
    have h := adjacent_skip_destutter ((perm.map fun i => cell_id.getD i 0).enumFrom 1)
      (0, cell_id.getD p 0)
    rw [List.enumFrom_map_snd] at h
    have h2 := congrArg List.length h
    rw [List.length_map] at h2
    unfold pivot_candidates
    rw [List.length_map]
    exact h2

/-- When every element carries the value of the predecessor nothing is kept. -/
theorem adjacent_skip_const {α β : Type} [DecidableEq β] (c : β) :
    ∀ (l : List (α × β)) (a : α × β), a.2 = c → (∀ x ∈ l, x.2 = c) →
      adjacent_skip (fun x y => decide (x.2 ≠ y.2)) a l = [] := by
  intro l
  induction l with
  | nil => intro a _ _; rfl
  | cons b l ih =>
    intro a ha hl
    have hb : b.2 = c := hl b (List.mem_cons_self _ _)
    rw [adjacent_skip]
    have : ¬ (a.2 ≠ b.2) := by rw [ha, hb]; simp
    simp only [this, decide_False, Bool.false_eq_true, if_false]
    exact ih b hb fun x hx => hl x (List.mem_cons_of_mem _ hx)

end InteractionMap

/-! ## What a successful construction fixes -/

namespace InteractionMap

theorem init_pivots_eq_ok {n : ℕ} {n_points : ℕ} {cell_id : List (cell_t n)}
    {permutation pivots : List ℕ} :
    init_pivots n_points cell_id permutation = .ok pivots ↔
      (pivot_candidates cell_id permutation).length ≠ n_points ∧
        pivots = pivot_candidates cell_id permutation ++ [n_points] := by
  unfold init_pivots
  by_cases h : (pivot_candidates cell_id permutation).length = n_points
  · simp [h]
  · simp only [h, if_false, Except.ok.injEq, ne_eq, not_false_eq_true, true_and]
    exact eq_comm

theorem init_pivots_eq_error {n : ℕ} {n_points : ℕ} {cell_id : List (cell_t n)}
    {permutation : List ℕ} :
    (∃ e, init_pivots n_points cell_id permutation = .error e) ↔
      (pivot_candidates cell_id permutation).length = n_points := by
  unfold init_pivots
  by_cases h : (pivot_candidates cell_id permutation).length = n_points
  · simp [h]
  · simp [h]

namespace PointGrid

theorem built_of_construct {n : ℕ} {position : List (vector_t n)} {lengthscale : ℚ}
    {g : PointGrid n} (h : construct position lengthscale = .ok g) :
    Built position lengthscale g := by
  unfold construct at h
  simp only at h
  split at h
  · exact absurd h (by simp)
  · rename_i pivots hp
    obtain ⟨h1, h2⟩ := init_pivots_eq_ok.mp hp
    injection h with h
    subst h
    exact ⟨rfl, rfl, rfl, rfl, rfl, rfl, rfl, rfl, h1, h2, rfl, rfl⟩

/-- Construction fails exactly when `init_pivots` throws. -/
theorem construct_eq_error_iff {n : ℕ} (position : List (vector_t n)) (lengthscale : ℚ) :
    (∃ e, construct position lengthscale = .error e) ↔
      ∃ e, init_pivots position.length
        (init_cells position (init_extents position) lengthscale)
        (init_permutation position.length
          (init_strides (init_shape (init_extents position) lengthscale))
          (init_cells position (init_extents position) lengthscale)) = .error e := by
  unfold construct
  simp only
  split
  · rename_i e he
    simp [he]
  · rename_i pv hp
    simp [hp]

theorem built_permutation_length {n : ℕ} {position : List (vector_t n)} {lengthscale : ℚ}
    {g : PointGrid n} (h : Built position lengthscale g) : g.permutation.length = g.n_points := by
  rw [h.permutation_eq, init_permutation_length]

theorem built_n_buckets {n : ℕ} {position : List (vector_t n)} {lengthscale : ℚ}
    {g : PointGrid n} (h : Built position lengthscale g) :
    g.n_buckets = (pivot_candidates g.cell_id g.permutation).length := by
  rw [h.n_buckets_eq, h.pivots_eq]
  simp

theorem built_pivots_sorted {n : ℕ} {position : List (vector_t n)} {lengthscale : ℚ}
    {g : PointGrid n} (h : Built position lengthscale g) : g.pivots.Sorted (· < ·) := by
  rw [h.pivots_eq]
  unfold List.Sorted
  rw [List.pairwise_append]
  refine ⟨pivot_candidates_sorted _ _, List.pairwise_singleton _ _, fun a ha b hb => ?_⟩
  rw [List.mem_singleton] at hb
  subst hb
  rw [← built_permutation_length h]
  exact pivot_candidates_lt _ _ a ha

theorem built_n_points_pos {n : ℕ} {position : List (vector_t n)} {lengthscale : ℚ}
    {g : PointGrid n} (h : Built position lengthscale g) : 0 < g.n_points := by
  rcases Nat.eq_zero_or_pos g.n_points with h0 | h0
  · exfalso
    have hl := built_permutation_length h
    rw [h0, List.length_eq_zero] at hl
    apply h.candidates_ne
    rw [hl, h0]
    rfl
  · exact h0

theorem built_pivots_head {n : ℕ} {position : List (vector_t n)} {lengthscale : ℚ}
    {g : PointGrid n} (h : Built position lengthscale g) : g.pivots.head? = some 0 := by
  have hpos := built_n_points_pos h
  have hl := built_permutation_length h
  rw [h.pivots_eq]
  cases hperm : g.permutation with
  | nil => rw [hperm] at hl; simp at hl; omega
  | cons p perm =>
    obtain ⟨rest, hr, _⟩ := pivot_candidates_cons g.cell_id p perm
    rw [hr]
    rfl

end PointGrid

end InteractionMap

/-! ## Claims on the pivot table and the permutation -/

namespace InteractionMap

namespace PointGrid

theorem built_pivots_length {n : ℕ} {position : List (vector_t n)} {lengthscale : ℚ}
    {g : PointGrid n} (h : Built position lengthscale g) : g.pivots.length = g.n_buckets + 1 := by
  rw [built_n_buckets h, h.pivots_eq]
  simp

theorem built_pivots_step {n : ℕ} {position : List (vector_t n)} {lengthscale : ℚ}
    {g : PointGrid n} (h : Built position lengthscale g) (b : ℕ) (hb : b < g.n_buckets) :
    g.pivots.getD b 0 < g.pivots.getD (b + 1) 0 := by
  have hl := built_pivots_length h
  have hs := built_pivots_sorted h
  rw [List.getD_eq_getElem _ _ (by omega : b < g.pivots.length),
    List.getD_eq_getElem _ _ (by omega : b + 1 < g.pivots.length)]
  exact List.pairwise_iff_getElem.mp hs b (b + 1) (by omega) (by omega) (by omega)

theorem indices_from_bucket_natCast {n : ℕ} (g : PointGrid n) (b : ℕ) :
    g.indices_from_bucket (b : ℤ) = irange (g.pivots.getD b 0) (g.pivots.getD (b + 1) 0) := by
  unfold indices_from_bucket
  have : ¬ ((b : ℤ) = -1) := by omega
  simp only [this, if_false, Int.toNat_ofNat]

/-- Consecutive slices of a non-decreasing boundary list tile the range from its first to
its last element. -/
theorem flatMap_irange_consecutive :
    ∀ (pv : List ℕ) (a : ℕ), (a :: pv).Sorted (· ≤ ·) →
      (List.range pv.length).flatMap
          (fun b => irange ((a :: pv).getD b 0) ((a :: pv).getD (b + 1) 0))
        = irange a ((a :: pv).getLast (List.cons_ne_nil _ _)) := by
  intro pv
  induction pv with
  | nil => intro a _; simp [irange]
  | cons c pv ih =>
    intro a hs
    rw [List.sorted_cons] at hs
    have hc := ih c hs.2
    rw [List.length_cons, List.range_succ_eq_map, List.flatMap_cons, List.flatMap_map]
    have hlast : (a :: c :: pv).getLast (List.cons_ne_nil _ _)
        = (c :: pv).getLast (List.cons_ne_nil _ _) := List.getLast_cons _
    rw [hlast]
    have hcl : c ≤ (c :: pv).getLast (List.cons_ne_nil _ _) := by
      rcases List.mem_cons.mp (List.getLast_mem (List.cons_ne_nil c pv)) with h | h
      · omega
      · exact (List.sorted_cons.mp hs.2).1 _ h
    rw [← irange_append (hs.1 c (List.mem_cons_self _ _)) hcl, ← hc]
    rfl

theorem map_getD_range {α : Type} (l : List α) (d : α) :
    (List.range l.length).map (fun i => l.getD i d) = l := by
  apply List.ext_getElem
  · simp
  · intro i h1 h2
    simp only [List.getElem_map, List.getElem_range]
    exact List.getD_eq_getElem _ _ h2

/-- On a constructed grid the bucket slices, in bucket order, tile `[0, n_points)`. -/
theorem built_flatMap_indices {n : ℕ} {position : List (vector_t n)} {lengthscale : ℚ}
    {g : PointGrid n} (h : Built position lengthscale g) :
    (List.range g.n_buckets).flatMap (fun b => g.indices_from_bucket (b : ℤ))
      = List.range g.n_points := by
  have hs : g.pivots.Sorted (· ≤ ·) := (built_pivots_sorted h).imp le_of_lt
  have hh := built_pivots_head h
  have hl := built_pivots_length h
  have hlast : g.pivots.getLast? = some g.n_points := by
    rw [h.pivots_eq, List.getLast?_concat]
  cases hp : g.pivots with
  | nil => rw [hp] at hl; simp at hl
  | cons a pv =>
    rw [hp] at hs hh hl hlast
    simp only [List.head?_cons, Option.some.injEq] at hh
    subst hh
    have hn : pv.length = g.n_buckets := by simpa using hl
    have := flatMap_irange_consecutive pv 0 hs
    rw [List.getLast?_eq_getLast _ (List.cons_ne_nil _ _), Option.some.injEq] at hlast
    rw [hlast, irange_zero, hn] at this
    rw [← this]
    congr 1
    funext b
    rw [indices_from_bucket_natCast, hp]

end PointGrid

open PointGrid

/-- C8: on every successfully constructed grid, `pivots` is strictly increasing, starts
with `0`, ends with `n_points`, `n_buckets = pivots.size() - 1`, and every bucket
`[pivots[b], pivots[b+1])` is non-empty. -/
theorem C8_pivot_table_invariant {n : ℕ} (position : List (vector_t n)) (lengthscale : ℚ)
    (g : PointGrid n) (h : PointGrid.construct position lengthscale = .ok g) :
    g.pivots.Sorted (· < ·) ∧ g.pivots.head? = some 0 ∧ g.pivots.getLast? = some g.n_points ∧
      g.n_points = position.length ∧ g.n_buckets = g.pivots.length - 1 ∧
      ∀ b, b < g.n_buckets → g.pivots.getD b 0 < g.pivots.getD (b + 1) 0 ∧
        g.indices_from_bucket (b : ℤ) ≠ [] := by
  have hb := built_of_construct h
  refine ⟨built_pivots_sorted hb, built_pivots_head hb, ?_, hb.n_points_eq, hb.n_buckets_eq,
    fun b hlt => ?_⟩
  · rw [hb.pivots_eq, List.getLast?_concat]
  · have hstep := built_pivots_step hb b hlt
    refine ⟨hstep, ?_⟩
    rw [indices_from_bucket_natCast]
    intro hnil
    have : g.pivots.getD b 0 ∈ irange (g.pivots.getD b 0) (g.pivots.getD (b + 1) 0) :=
      mem_irange.mpr ⟨le_refl _, hstep⟩
    rw [hnil] at this
    exact absurd this (List.not_mem_nil _)

/-- C3: on every successfully constructed grid, `permutation` is a rearrangement of
`0 .. n_points`, the bucket ranges `permutation[pivots[b] .. pivots[b+1])` concatenated in
bucket order give back `permutation`, and every point index lies in exactly one bucket. -/
theorem C3_permutation_bijection_and_buckets {n : ℕ} (position : List (vector_t n))
    (lengthscale : ℚ) (g : PointGrid n)
    (h : PointGrid.construct position lengthscale = .ok g) :
    g.permutation.Perm (List.range g.n_points) ∧ g.n_points = position.length ∧
      (List.range g.n_buckets).flatMap
          (fun b => (g.indices_from_bucket (b : ℤ)).map fun i => g.permutation.getD i 0)
        = g.permutation ∧
      ∀ v, v < g.n_points → ∃! b, b < g.n_buckets ∧
        v ∈ (g.indices_from_bucket (b : ℤ)).map fun i => g.permutation.getD i 0 := by
  have hb := built_of_construct h
  have hperm : g.permutation.Perm (List.range g.n_points) := by
    rw [hb.permutation_eq]
    exact init_permutation_perm _ _ _
  have hcat : (List.range g.n_buckets).flatMap
      (fun b => (g.indices_from_bucket (b : ℤ)).map fun i => g.permutation.getD i 0)
      = g.permutation := by
    rw [← List.map_flatMap, built_flatMap_indices hb, ← built_permutation_length hb]
    exact map_getD_range _ _
  refine ⟨hperm, hb.n_points_eq, hcat, fun v hv => ?_⟩
  have hmem : v ∈ g.permutation := hperm.mem_iff.mpr (List.mem_range.mpr hv)
  have hnd : g.permutation.Nodup := hperm.nodup_iff.mpr (List.nodup_range _)
  rw [← hcat] at hmem hnd
  obtain ⟨b, hb1, hb2⟩ := List.mem_flatMap.mp hmem
  refine ⟨b, ⟨List.mem_range.mp hb1, hb2⟩, fun b2 ⟨hlt, hin⟩ => ?_⟩
  by_contra hne
  have hdis := (List.nodup_flatMap.mp hnd).2
  have := List.pairwise_iff_getElem.mp hdis
  rcases Nat.lt_or_gt_of_ne hne with hlt2 | hlt2
  · have hd := this b2 b (by simpa using hlt) (by simpa using List.mem_range.mp hb1) hlt2
    simp only [List.getElem_range] at hd
    exact (List.disjoint_left.mp hd) hin hb2
  · have hd := this b b2 (by simpa using List.mem_range.mp hb1) (by simpa using hlt) hlt2
    simp only [List.getElem_range] at hd
    exact (List.disjoint_left.mp hd) hb2 hin

end InteractionMap

/-! ## Concrete constructions -/

namespace InteractionMap

theorem sample_grid_constructed : PointGrid.construct sample_points 1 = .ok sample_grid := by
  with_unfolding_all decide

theorem negative_grid_constructed :
    PointGrid.construct close_points (-1) = .ok negative_grid := by
  with_unfolding_all decide

theorem shifted_grid_constructed : PointGrid.construct shifted_points 1 = .ok shifted_grid := by
  with_unfolding_all decide

theorem mixed_grid_constructed : PointGrid.construct mixed_points 1 = .ok mixed_grid := by
  with_unfolding_all decide

/-- C8 on the grid over `sample_points`. -/
theorem C8_pivot_table_invariant_witness :
    PointGrid.construct sample_points 1 = .ok sample_grid ∧
    (sample_grid.pivots.Sorted (· < ·) ∧ sample_grid.pivots.head? = some 0 ∧
      sample_grid.pivots.getLast? = some sample_grid.n_points ∧
      sample_grid.n_points = sample_points.length ∧
      sample_grid.n_buckets = sample_grid.pivots.length - 1 ∧
      ∀ b, b < sample_grid.n_buckets →
        sample_grid.pivots.getD b 0 < sample_grid.pivots.getD (b + 1) 0 ∧
        sample_grid.indices_from_bucket (b : ℤ) ≠ []) :=
  ⟨sample_grid_constructed,
    C8_pivot_table_invariant sample_points 1 sample_grid sample_grid_constructed⟩

/-- C3 on the grid over `sample_points`. -/
theorem C3_permutation_bijection_and_buckets_witness :
    PointGrid.construct sample_points 1 = .ok sample_grid ∧
    (sample_grid.permutation.Perm (List.range sample_grid.n_points) ∧
      sample_grid.n_points = sample_points.length ∧
      (List.range sample_grid.n_buckets).flatMap
          (fun b => (sample_grid.indices_from_bucket (b : ℤ)).map
            fun i => sample_grid.permutation.getD i 0)
        = sample_grid.permutation ∧
      ∀ v, v < sample_grid.n_points → ∃! b, b < sample_grid.n_buckets ∧
        v ∈ (sample_grid.indices_from_bucket (b : ℤ)).map
          fun i => sample_grid.permutation.getD i 0) :=
  ⟨sample_grid_constructed,
    C3_permutation_bijection_and_buckets sample_points 1 sample_grid sample_grid_constructed⟩

/-! ## Rejection and acceptance at construction -/

/-- C5: `init_pivots` throws exactly when the number of runs of equal cells under the
sorted permutation equals `n_points`, and so does the constructor; otherwise `init_pivots`
returns a pivot table with one entry per run plus the closing `n_points`, and the
constructor returns a grid holding that table. -/
theorem C5_degenerate_rejection {n : ℕ} (position : List (vector_t n)) (lengthscale : ℚ) :
    ((∃ e, init_pivots position.length (sorted_cells position lengthscale).1
          (sorted_cells position lengthscale).2 = .error e) ↔
        n_runs (sorted_cells position lengthscale).1 (sorted_cells position lengthscale).2
          = position.length) ∧
    ((∃ e, PointGrid.construct position lengthscale = .error e) ↔
        n_runs (sorted_cells position lengthscale).1 (sorted_cells position lengthscale).2
          = position.length) ∧
    ((∃ pivots g, init_pivots position.length (sorted_cells position lengthscale).1
          (sorted_cells position lengthscale).2 = .ok pivots ∧
          PointGrid.construct position lengthscale = .ok g ∧ g.pivots = pivots ∧
          g.cell_id = (sorted_cells position lengthscale).1 ∧
          g.permutation = (sorted_cells position lengthscale).2 ∧
          g.n_buckets = n_runs g.cell_id g.permutation ∧
          pivots.length = n_runs g.cell_id g.permutation + 1) ↔
        n_runs (sorted_cells position lengthscale).1 (sorted_cells position lengthscale).2
          ≠ position.length) := by
  have herr := @init_pivots_eq_error n position.length (sorted_cells position lengthscale).1
    (sorted_cells position lengthscale).2
  rw [pivot_candidates_length] at herr
  have hcon := PointGrid.construct_eq_error_iff position lengthscale
  refine ⟨herr, hcon.trans herr, ?_⟩
  constructor
  · rintro ⟨pivots, g, hp, -⟩ hruns
    obtain ⟨e, he⟩ := herr.mpr hruns
    rw [hp] at he
    exact absurd he (by simp)
  · intro hne
    cases hc : PointGrid.construct position lengthscale with
    | error e => exact absurd ((hcon.trans herr).mp ⟨e, hc⟩) hne
    | ok g =>
      have hb := PointGrid.built_of_construct hc
      have h1 : g.cell_id = (sorted_cells position lengthscale).1 := by
        rw [hb.cell_id_eq, hb.extents_eq]; rfl
      have h2 : g.permutation = (sorted_cells position lengthscale).2 := by
        rw [hb.permutation_eq, hb.strides_eq, hb.shape_eq, hb.cell_id_eq, hb.extents_eq,
          hb.n_points_eq]; rfl
      have h3 : g.n_buckets = n_runs g.cell_id g.permutation := by
        rw [PointGrid.built_n_buckets hb, pivot_candidates_length]; rfl
      refine ⟨g.pivots, g, ?_, rfl, rfl, h1, h2, h3, ?_⟩
      · rw [← h1, ← h2, ← hb.n_points_eq]
        exact init_pivots_eq_ok.mpr ⟨hb.candidates_ne, hb.pivots_eq⟩
      · rw [PointGrid.built_pivots_length hb, h3]

theorem init_cells_getD {n : ℕ} (position : List (vector_t n)) (extents : box_t n)
    (lengthscale : ℚ) (v : ℕ) (hv : v < position.length) :
    (init_cells position extents lengthscale).getD v 0
      = cell_from_position extents lengthscale (position.getD v 0) := by
  unfold init_cells
  rw [irange_zero, List.getD_eq_getElem _ _ (by simpa using hv)]
  simp

/-- When all points share one cell the run starts reduce to `[0]`. -/
theorem pivot_candidates_of_same_cell {n : ℕ} (cell_id : List (cell_t n)) (c : cell_t n)
    (p : ℕ) (perm : List ℕ) (h : ∀ i ∈ p :: perm, cell_id.getD i 0 = c) :
    pivot_candidates cell_id (p :: perm) = [0] := by
  have hskip := adjacent_skip_const (α := ℕ) c
    ((perm.map fun i => cell_id.getD i 0).enumFrom 1) (0, cell_id.getD p 0)
    (h p (List.mem_cons_self _ _)) (by
      intro x hx
      have hx2 : x.2 ∈ perm.map fun i => cell_id.getD i 0 := by
        rw [← List.enumFrom_map_snd 1 (perm.map fun i => cell_id.getD i 0)]
        exact List.mem_map_of_mem _ hx
      obtain ⟨i, hi, hxi⟩ := List.mem_map.mp hx2
      rw [← hxi]
      exact h i (List.mem_cons_of_mem _ hi))
  show 0 :: (adjacent_skip (fun a b : ℕ × cell_t n => decide (a.2 ≠ b.2)) (0, cell_id.getD p 0)
    ((perm.map fun i => cell_id.getD i 0).enumFrom 1)).map Prod.fst = [0]
  rw [hskip]
  rfl

/-- C6 (amended): for every point set with at least two points and every lengthscale `> 0`
under which all points map to the same cell, construction succeeds and yields exactly one
bucket, `pivots = [0, n_points]`, whose range holds the whole permutation, that is all
points. -/
theorem C6_single_bucket_collapse {n : ℕ} (position : List (vector_t n)) (lengthscale : ℚ)
    (hn : 2 ≤ position.length) (hls : 0 < lengthscale)
    (hsame : ∀ p ∈ position, ∀ q ∈ position,
      cell_from_position (init_extents position) lengthscale p
        = cell_from_position (init_extents position) lengthscale q) :
    ∃ g, PointGrid.construct position lengthscale = .ok g ∧ 0 < g.lengthscale ∧
      g.pivots = [0, position.length] ∧ g.n_buckets = 1 ∧
      ((g.indices_from_bucket 0).map fun i => g.permutation.getD i 0) = g.permutation ∧
      g.permutation.Perm (List.range position.length) := by
  obtain ⟨cell_id, hcid⟩ :
      ∃ c, c = init_cells position (init_extents position) lengthscale := ⟨_, rfl⟩
  obtain ⟨permutation, hperm⟩ : ∃ p, p = init_permutation position.length
      (init_strides (init_shape (init_extents position) lengthscale)) cell_id := ⟨_, rfl⟩
  have hP : permutation.Perm (List.range position.length) := by
    rw [hperm]; exact init_permutation_perm _ _ _
  have hpos : 0 < position.length := by omega
  have hcell : ∀ i ∈ permutation, cell_id.getD i 0
      = cell_from_position (init_extents position) lengthscale (position.getD 0 0) := by
    intro i hi
    have hi2 : i < position.length := List.mem_range.mp (hP.mem_iff.mp hi)
    rw [hcid, init_cells_getD _ _ _ _ hi2]
    apply hsame
    · rw [List.getD_eq_getElem _ _ hi2]; exact List.getElem_mem _
    · rw [List.getD_eq_getElem _ _ hpos]; exact List.getElem_mem _
  have hlen : permutation.length = position.length := by
    rw [hP.length_eq, List.length_range]
  have hcand : pivot_candidates cell_id permutation = [0] := by
    cases hp : permutation with
    | nil => rw [hp] at hlen; simp at hlen; omega
    | cons p perm =>
      rw [hp] at hcell
      exact pivot_candidates_of_same_cell cell_id _ p perm hcell
  have hok : init_pivots position.length cell_id permutation = .ok [0, position.length] := by
    apply init_pivots_eq_ok.mpr
    rw [hcand]
    constructor
    · simp only [List.length_singleton, ne_eq]; omega
    · rfl
  cases hc : PointGrid.construct position lengthscale with
  | error e =>
    exfalso
    obtain ⟨e2, he2⟩ := (PointGrid.construct_eq_error_iff position lengthscale).mp ⟨e, hc⟩
    rw [← hcid, ← hperm, hok] at he2
    exact absurd he2 (by simp)
  | ok g =>
    have hb := PointGrid.built_of_construct hc
    have h1 : g.cell_id = cell_id := by rw [hb.cell_id_eq, hb.extents_eq, hcid]
    have h2 : g.permutation = permutation := by
      rw [hb.permutation_eq, hb.strides_eq, hb.shape_eq, h1, hb.extents_eq, hb.n_points_eq, hperm]
    have h3 : g.pivots = [0, position.length] := by
      rw [hb.pivots_eq, h1, h2, hcand, hb.n_points_eq]; rfl
    refine ⟨g, rfl, ?_, h3, ?_, ?_, ?_⟩
    · rw [hb.lengthscale_eq]; exact hls
    · rw [hb.n_buckets_eq, h3]; rfl
    · have : g.indices_from_bucket 0 = List.range g.permutation.length := by
        rw [show (0 : ℤ) = ((0 : ℕ) : ℤ) from rfl, PointGrid.indices_from_bucket_natCast, h3,
          h2, hlen]
        exact irange_zero _
      rw [this]
      exact PointGrid.map_getD_range _ _
    · rw [h2]; exact hP

/-- C6 (amended) on `close_points` with lengthscale `1`. -/
theorem C6_single_bucket_collapse_witness :
    2 ≤ close_points.length ∧ (0 : ℚ) < 1 ∧
    ∃ g, PointGrid.construct close_points 1 = .ok g ∧ 0 < g.lengthscale ∧
      g.pivots = [0, close_points.length] ∧ g.n_buckets = 1 ∧
      ((g.indices_from_bucket 0).map fun i => g.permutation.getD i 0) = g.permutation ∧
      g.permutation.Perm (List.range close_points.length) :=
  ⟨by decide, by decide,
    C6_single_bucket_collapse close_points 1 (by decide) (by decide)
      (by with_unfolding_all decide)⟩

/-- C6 as stated fails on a single point: the point set is non-empty, the lengthscale is
positive, all points share one cell, and construction throws. -/
theorem C6_counterexample :
    ([![0, 0, 0]] : List (vector_t 3)) ≠ [] ∧ (0 : ℚ) < 1 ∧
    (∀ p ∈ ([![0, 0, 0]] : List (vector_t 3)), ∀ q ∈ ([![0, 0, 0]] : List (vector_t 3)),
      cell_from_position (init_extents [![0, 0, 0]]) 1 p
        = cell_from_position (init_extents [![0, 0, 0]]) 1 q) ∧
    PointGrid.construct ([![0, 0, 0]] : List (vector_t 3)) 1
      = .error "every vertex is in its own cell; lengthscale probably needs to go way up" := by
  with_unfolding_all decide

/-- C7 (amended): with a negative lengthscale the constructor has no check of its own: it
is rejected exactly when `init_pivots` finds as many runs as points, and otherwise returns a
grid that carries the negative lengthscale. -/
theorem C7_negative_lengthscale {n : ℕ} (position : List (vector_t n)) (lengthscale : ℚ)
    (hls : lengthscale < 0) :
    ((∃ e, PointGrid.construct position lengthscale = .error e) ↔
        n_runs (sorted_cells position lengthscale).1 (sorted_cells position lengthscale).2
          = position.length) ∧
    ((∃ g, PointGrid.construct position lengthscale = .ok g ∧ g.lengthscale < 0) ↔
        n_runs (sorted_cells position lengthscale).1 (sorted_cells position lengthscale).2
          ≠ position.length) := by
  have herr := @init_pivots_eq_error n position.length (sorted_cells position lengthscale).1
    (sorted_cells position lengthscale).2
  rw [pivot_candidates_length] at herr
  have hcon := (PointGrid.construct_eq_error_iff position lengthscale).trans herr
  refine ⟨hcon, ?_⟩
  constructor
  · rintro ⟨g, hg, -⟩ hruns
    obtain ⟨e, he⟩ := hcon.mpr hruns
    rw [hg] at he
    exact absurd he (by simp)
  · intro hne
    cases hc : PointGrid.construct position lengthscale with
    | error e => exact absurd (hcon.mp ⟨e, hc⟩) hne
    | ok g =>
      refine ⟨g, rfl, ?_⟩
      rw [(PointGrid.built_of_construct hc).lengthscale_eq]
      exact hls

/-- C7 (amended) on `close_points` with lengthscale `-1`. -/
theorem C7_negative_lengthscale_witness :
    (-1 : ℚ) < 0 ∧
    ((∃ e, PointGrid.construct close_points (-1) = .error e) ↔
        n_runs (sorted_cells close_points (-1)).1 (sorted_cells close_points (-1)).2
          = close_points.length) ∧
    ((∃ g, PointGrid.construct close_points (-1) = .ok g ∧ g.lengthscale < 0) ↔
        n_runs (sorted_cells close_points (-1)).1 (sorted_cells close_points (-1)).2
          ≠ close_points.length) :=
  ⟨by decide, C7_negative_lengthscale close_points (-1) (by decide)⟩

/-- C7 as stated fails: with lengthscale `-1` the constructor returns a grid. -/
theorem C7_counterexample :
    (-1 : ℚ) ≤ 0 ∧ PointGrid.construct close_points (-1) = .ok negative_grid :=
  ⟨by decide, negative_grid_constructed⟩

/-! ## The shape of a point cloud away from the origin -/

/-- C2 at `shifted_points`: the grid is constructed with lengthscale `1 > 0`, its shape
along the first axis is `0`, the accelerated box query hands no vertex to the callback and
the naive one hands both. -/
theorem C2_box_query_misses_points :
    (0 : ℚ) < 1 ∧ PointGrid.construct shifted_points 1 = .ok shifted_grid ∧
    shifted_grid.shape 0 = 0 ∧
    shifted_grid.for_each_vertex_in_bounding_box shifted_box = [] ∧
    shifted_grid.for_each_vertex_in_bounding_box_naive shifted_box = [0, 1] := by
  refine ⟨by decide, shifted_grid_constructed, ?_⟩
  with_unfolding_all decide

/-- C4 at `mixed_points`: the grid is constructed with lengthscale `1 > 0`; the points in
cell `(1, 0, 0)` are `0, 2, 3`, while `vertices_from_cell` yields only `0`; the cell heads
two buckets, `0` and `2`, neither of which holds all three points. -/
theorem C4_cell_lookup_misses_members :
    (0 : ℚ) < 1 ∧ PointGrid.construct mixed_points 1 = .ok mixed_grid ∧
    ((List.range mixed_grid.n_points).filter fun i =>
        decide (cell_from_position mixed_grid.extents mixed_grid.lengthscale
          (mixed_grid.position.getD i 0) = ![1, 0, 0])) = [0, 2, 3] ∧
    mixed_grid.vertices_from_cell ![1, 0, 0] = [0] ∧
    ((mixed_grid.indices_from_bucket 0).map fun i => mixed_grid.permutation.getD i 0) = [0] ∧
    ((mixed_grid.indices_from_bucket 2).map fun i => mixed_grid.permutation.getD i 0)
      = [2, 3] := by
  refine ⟨by decide, mixed_grid_constructed, ?_⟩
  with_unfolding_all decide

/-- C10 at `mixed_points`: the grid is constructed with lengthscale `1 > 0` and
`for_each_cell` visits the cell `(1, 0, 0)` twice. -/
theorem C10_cell_enumerated_twice :
    (0 : ℚ) < 1 ∧ PointGrid.construct mixed_points 1 = .ok mixed_grid ∧
    mixed_grid.for_each_cell = [![1, 0, 0], ![0, 1, 0], ![1, 0, 0]] ∧
    ¬ mixed_grid.for_each_cell.Nodup ∧
    mixed_grid.shape = ![1, 2, 1] ∧ mixed_grid.cell_id.getD 0 0 0 = 1 := by
  refine ⟨by decide, mixed_grid_constructed, ?_⟩
  with_unfolding_all decide

end InteractionMap

/-! ## Pair traversal -/

namespace Grid

namespace PointGrid

variable {n : ℕ}

theorem d2_comm (g : PointGrid n) (i j : ℕ) : g.d2 i j = g.d2 j i := by
  unfold d2
  refine Finset.sum_congr rfl fun k _ => ?_
  ring

theorem mem_wrapper (g : PointGrid n) (i j : ℕ) (t : ℕ × ℕ × ℚ) :
    t ∈ g.wrapper i j ↔ t = (i, j, g.d2 i j) ∧ g.d2 i j ≤ g.spec.scale * g.spec.scale := by
  unfold wrapper
  by_cases h : g.d2 i j > g.spec.scale * g.spec.scale
  · simp only [h, if_true, List.not_mem_nil, false_iff]
    exact fun h2 => absurd h (not_lt.mpr h2.2)
  · simp only [h, if_false, List.mem_singleton, iff_self_and]
    exact fun _ => not_lt.mp h

theorem wrapper_nodup (g : PointGrid n) (i j : ℕ) : (g.wrapper i j).Nodup := by
  unfold wrapper
  split <;> simp

theorem mem_within_bucket (g : PointGrid n) (pi : ℕ) (t : ℕ × ℕ × ℚ) :
    ∀ bi : List ℕ, t ∈ g.within_bucket pi bi ↔
      ∃ pj, pj ∈ bi.takeWhile (fun x => decide (x ≠ pi)) ∧ t ∈ g.wrapper pi pj := by
  intro bi
  induction bi with
  | nil => simp [within_bucket]
  | cons c bi ih =>
    rw [within_bucket]
    by_cases h : pi = c
    · subst h
      simp [List.takeWhile]
    · have hc : c ≠ pi := fun h2 => h h2.symm
      simp only [h, if_false, List.mem_append, ih, List.takeWhile_cons, hc, ne_eq,
        not_false_eq_true, decide_True, if_true, List.mem_cons, exists_eq_or_imp]

theorem within_bucket_nodup (g : PointGrid n) (pi : ℕ) :
    ∀ bi : List ℕ, bi.Nodup → (g.within_bucket pi bi).Nodup := by
  intro bi
  induction bi with
  | nil => intro _; simp [within_bucket]
  | cons c bi ih =>
    intro hnd
    rw [within_bucket]
    split
    · simp
    · rw [List.nodup_cons] at hnd
      rw [List.nodup_append]
      refine ⟨wrapper_nodup g pi c, ih hnd.2, fun t h1 h2 => ?_⟩
      rw [mem_wrapper] at h1
      obtain ⟨pj, hpj, hw⟩ := (mem_within_bucket g pi t bi).mp h2
      rw [mem_wrapper] at hw
      have : c = pj := by
        have := h1.1.symm.trans hw.1
        simp only [Prod.mk.injEq] at this
        exact this.2.1
      subst this
      exact hnd.1 ((List.takeWhile_sublist _).subset hpj)

/-- Of two members of a list neither of which is the other, none precedes and follows the
other at once. -/
theorem not_before_both (x y : ℕ) :
    ∀ bi : List ℕ, ¬ (x ∈ bi.takeWhile (fun z => decide (z ≠ y)) ∧
      y ∈ bi.takeWhile (fun z => decide (z ≠ x))) := by
  intro bi
  induction bi with
  | nil => simp
  | cons c bi ih =>
    rintro ⟨h1, h2⟩
    by_cases hy : c = y
    · subst hy; simp [List.takeWhile] at h1
    · by_cases hx : c = x
      · subst hx; simp [List.takeWhile] at h2
      · simp only [List.takeWhile_cons, hy, hx, ne_eq, not_false_eq_true, decide_True, if_true,
          List.mem_cons] at h1 h2
        rcases h1 with h1 | h1
        · exact hx h1.symm
        · rcases h2 with h2 | h2
          · exact hy h2.symm
          · exact ih ⟨h1, h2⟩

/-- Of two distinct members of a list one precedes the other. -/
theorem before_or_after (x y : ℕ) (hxy : x ≠ y) :
    ∀ bi : List ℕ, x ∈ bi → y ∈ bi →
      x ∈ bi.takeWhile (fun z => decide (z ≠ y)) ∨
        y ∈ bi.takeWhile (fun z => decide (z ≠ x)) := by
  intro bi
  induction bi with
  | nil => intro h; simp at h
  | cons c bi ih =>
    intro hx hy
    by_cases hcx : c = x
    · subst hcx
      left
      simp [List.takeWhile_cons, hxy]
    · by_cases hcy : c = y
      · subst hcy
        right
        simp [List.takeWhile_cons, hcx]
      · have hx2 : x ∈ bi := by
          rcases List.mem_cons.mp hx with h | h
          · exact absurd h.symm hcx
          · exact h
        have hy2 : y ∈ bi := by
          rcases List.mem_cons.mp hy with h | h
          · exact absurd h.symm hcy
          · exact h
        simp only [List.takeWhile_cons, hcy, hcx, ne_eq, not_false_eq_true, decide_True,
          if_true, List.mem_cons]
        rcases ih hx2 hy2 with h | h
        · exact Or.inl (Or.inr h)
        · exact Or.inr (Or.inr h)

/-- A concatenation of duplicate-free lists is duplicate-free when every element carries a
tag that names the list it came from. -/
theorem nodup_flatMap_of_tag {α β γ : Type} (l : List α) (f : α → List β) (tag : β → γ)
    (code : α → γ) (hl : l.Nodup) (hcode : ∀ a ∈ l, ∀ a2 ∈ l, code a = code a2 → a = a2)
    (hf : ∀ a ∈ l, (f a).Nodup) (htag : ∀ a ∈ l, ∀ b ∈ f a, tag b = code a) :
    (l.flatMap f).Nodup := by
  rw [List.nodup_flatMap]
  refine ⟨hf, ?_⟩
  refine List.Pairwise.imp_of_mem ?_ hl
  intro a a2 ha ha2 hne
  show List.Disjoint (f a) (f a2)
  intro b hb hb2
  exact hne (hcode a ha a2 ha2 ((htag a ha b hb).symm.trans (htag a2 ha2 b hb2)))

theorem mem_for_each_pair (g : PointGrid n) (t : ℕ × ℕ × ℚ) :
    t ∈ g.for_each_pair ↔ ∃ ci ∈ g.grid.unique_keys,
      (∃ pi ∈ g.grid.indices_from_key ci,
        ∃ pj ∈ (g.grid.indices_from_key ci).takeWhile (fun x => decide (x ≠ pi)),
          t ∈ g.wrapper pi pj) ∨
      (∃ o ∈ g.offsets, ∃ pj ∈ g.grid.indices_from_key (ci + o),
        ∃ pi ∈ g.grid.indices_from_key ci, t ∈ g.wrapper pi pj) := by
  unfold for_each_pair
  simp only [List.mem_flatMap, List.mem_append, mem_within_bucket]

/-- What the traversal hands to the callback, read off the grouping: the triple of two
valid points within `scale`, which either share a key with the second listed before the
first in their bucket, or whose key difference (second minus first) is an offset. -/
theorem mem_for_each_pair_iff (g : PointGrid n) (hgrid : g.grid.Groups g.cell_id g.n_points)
    (t : ℕ × ℕ × ℚ) :
    t ∈ g.for_each_pair ↔
      t.2.2 = g.d2 t.1 t.2.1 ∧ g.d2 t.1 t.2.1 ≤ g.spec.scale * g.spec.scale ∧
      t.1 < g.n_points ∧ t.2.1 < g.n_points ∧
      ((g.cell_id.getD t.1 0 = g.cell_id.getD t.2.1 0 ∧
          t.2.1 ∈ (g.grid.indices_from_key (g.cell_id.getD t.1 0)).takeWhile
            (fun x => decide (x ≠ t.1))) ∨
        g.cell_id.getD t.2.1 0 - g.cell_id.getD t.1 0 ∈ g.offsets) := by
  obtain ⟨hidx, -, hkeys⟩ := hgrid
  rw [mem_for_each_pair]
  constructor
  · rintro ⟨ci, -, h | h⟩
    · obtain ⟨pi, hpi, pj, hpj, hw⟩ := h
      obtain ⟨rfl, hd⟩ := (mem_wrapper g pi pj t).mp hw
      have h1 := ((hidx ci).2 pi).mp hpi
      have h2 := ((hidx ci).2 pj).mp ((List.takeWhile_sublist _).subset hpj)
      refine ⟨rfl, hd, h1.1, h2.1, Or.inl ⟨h1.2.trans h2.2.symm, ?_⟩⟩
      show pj ∈ _
      rw [h1.2]
      exact hpj
    · obtain ⟨o, ho, pj, hpj, pi, hpi, hw⟩ := h
      obtain ⟨rfl, hd⟩ := (mem_wrapper g pi pj t).mp hw
      have h1 := ((hidx ci).2 pi).mp hpi
      have h2 := ((hidx (ci + o)).2 pj).mp hpj
      refine ⟨rfl, hd, h1.1, h2.1, Or.inr ?_⟩
      show g.cell_id.getD pj 0 - g.cell_id.getD pi 0 ∈ g.offsets
      rw [h1.2, h2.2]
      simpa using ho
  · obtain ⟨a, b, d⟩ := t
    rintro ⟨hd, hle, ha, hb, h⟩
    simp only at hd hle ha hb h
    subst hd
    have hmemA : a ∈ g.grid.indices_from_key (g.cell_id.getD a 0) :=
      ((hidx _).2 a).mpr ⟨ha, rfl⟩
    have hw : (a, b, g.d2 a b) ∈ g.wrapper a b := (mem_wrapper g a b _).mpr ⟨rfl, hle⟩
    refine ⟨g.cell_id.getD a 0, (hkeys _).mpr ⟨a, ha, rfl⟩, ?_⟩
    rcases h with ⟨-, hbef⟩ | ho
    · exact Or.inl ⟨a, hmemA, b, hbef, hw⟩
    · refine Or.inr ⟨_, ho, b, ?_, a, hmemA, hw⟩
      apply ((hidx _).2 b).mpr
      refine ⟨hb, ?_⟩
      ring

theorem for_each_pair_nodup (g : PointGrid n) (hgrid : g.grid.Groups g.cell_id g.n_points)
    (hst : HalfStencil g.offsets) : g.for_each_pair.Nodup := by
  obtain ⟨hidx, hknd, -⟩ := hgrid
  obtain ⟨h0, hond, -⟩ := hst
  unfold for_each_pair
  refine nodup_flatMap_of_tag _ _ (fun t => g.cell_id.getD t.1 0) id hknd
    (fun _ _ _ _ h => h) (fun ci _ => ?_) (fun ci _ t ht => ?_)
  · -- one bucket: the interaction within, then the neighbours
    simp only
    rw [List.nodup_append]
    refine ⟨?_, ?_, ?_⟩
    · refine nodup_flatMap_of_tag _ _ (fun t => t.1) id (hidx ci).1 (fun _ _ _ _ h => h)
        (fun pi _ => within_bucket_nodup g pi _ (hidx ci).1) (fun pi _ t ht => ?_)
      obtain ⟨pj, -, hw⟩ := (mem_within_bucket g pi t _).mp ht
      rw [((mem_wrapper g pi pj t).mp hw).1]
      rfl
    · refine nodup_flatMap_of_tag _ _ (fun t => g.cell_id.getD t.2.1 0 - ci) id hond
        (fun _ _ _ _ h => h) (fun o _ => ?_) (fun o _ t ht => ?_)
      · refine nodup_flatMap_of_tag _ _ (fun t => t.2.1) id (hidx (ci + o)).1
          (fun _ _ _ _ h => h) (fun pj _ => ?_) (fun pj _ t ht => ?_)
        · refine nodup_flatMap_of_tag _ _ (fun t => t.1) id (hidx ci).1 (fun _ _ _ _ h => h)
            (fun pi _ => wrapper_nodup g pi pj) (fun pi _ t ht => ?_)
          rw [((mem_wrapper g pi pj t).mp ht).1]
          rfl
        · obtain ⟨pi, -, hw⟩ := List.mem_flatMap.mp ht
          rw [((mem_wrapper g pi pj t).mp hw).1]
          rfl
      · obtain ⟨pj, hpj, ht2⟩ := List.mem_flatMap.mp ht
        obtain ⟨pi, -, hw⟩ := List.mem_flatMap.mp ht2
        rw [((mem_wrapper g pi pj t).mp hw).1]
        show g.cell_id.getD pj 0 - ci = o
        rw [(((hidx (ci + o)).2 pj).mp hpj).2]
        ring
    · intro t h1 h2
      obtain ⟨pi, -, h1⟩ := List.mem_flatMap.mp h1
      obtain ⟨pj, hpj, hw⟩ := (mem_within_bucket g pi t _).mp h1
      obtain ⟨o, ho, h2⟩ := List.mem_flatMap.mp h2
      obtain ⟨pj2, hpj2, h2⟩ := List.mem_flatMap.mp h2
      obtain ⟨pi2, -, hw2⟩ := List.mem_flatMap.mp h2
      have e1 := ((mem_wrapper g pi pj t).mp hw).1
      have e2 := ((mem_wrapper g pi2 pj2 t).mp hw2).1
      have e3 : pj = pj2 := by
        have := e1.symm.trans e2
        simp only [Prod.mk.injEq] at this
        exact this.2.1
      subst e3
      have k1 := (((hidx ci).2 pj).mp ((List.takeWhile_sublist _).subset hpj)).2
      have k2 := (((hidx (ci + o)).2 pj).mp hpj2).2
      have : o = 0 := by
        have := k1.symm.trans k2
        omega
      exact h0 (this ▸ ho)
  · simp only [id]
    rcases List.mem_append.mp ht with ht | ht
    · obtain ⟨pi, hpi, ht⟩ := List.mem_flatMap.mp ht
      obtain ⟨pj, -, hw⟩ := (mem_within_bucket g pi t _).mp ht
      rw [((mem_wrapper g pi pj t).mp hw).1]
      exact (((hidx ci).2 pi).mp hpi).2
    · obtain ⟨o, -, ht⟩ := List.mem_flatMap.mp ht
      obtain ⟨pj, -, ht⟩ := List.mem_flatMap.mp ht
      obtain ⟨pi, hpi, hw⟩ := List.mem_flatMap.mp ht
      rw [((mem_wrapper g pi pj t).mp hw).1]
      exact (((hidx ci).2 pi).mp hpi).2

/-- No pair is handed to the callback in both orders. -/
theorem for_each_pair_not_swapped (g : PointGrid n)
    (hgrid : g.grid.Groups g.cell_id g.n_points) (hst : HalfStencil g.offsets)
    (a b : ℕ) (d e : ℚ) (h1 : (a, b, d) ∈ g.for_each_pair) (h2 : (b, a, e) ∈ g.for_each_pair) :
    False := by
  obtain ⟨-, -, -, -, c1⟩ := (mem_for_each_pair_iff g hgrid _).mp h1
  obtain ⟨-, -, -, -, c2⟩ := (mem_for_each_pair_iff g hgrid _).mp h2
  obtain ⟨h0, -, hneg⟩ := hst
  simp only at c1 c2
  rcases c1 with ⟨k1, b1⟩ | o1
  · rcases c2 with ⟨-, b2⟩ | o2
    · rw [← k1] at b2
      exact not_before_both b a _ ⟨b1, b2⟩
    · rw [k1, sub_self] at o2
      exact h0 o2
  · rcases c2 with ⟨k2, -⟩ | o2
    · rw [k2, sub_self] at o1
      exact h0 o1
    · apply hneg _ o1
      rw [neg_sub]
      exact o2

end PointGrid

open PointGrid

/-- C1: for every grid whose bucket index groups the points by key and whose stencil is a
half stencil covering all pairs of keys that hold two points within `scale`, the unordered
pairs handed to the callback by `for_each_pair` contain no repetition, consist of two
distinct valid point indices with their squared distance, and are exactly the unordered
pairs `i != j` whose squared distance is at most `scale * scale`. -/
theorem C1_for_each_pair_complete_and_duplicate_free {n : ℕ} (g : PointGrid n)
    (hgrid : g.grid.Groups g.cell_id g.n_points) (hst : HalfStencil g.offsets)
    (hcov : g.Covered) :
    (g.for_each_pair.map unordered_pair).Nodup ∧
    (∀ t ∈ g.for_each_pair, t.1 ≠ t.2.1 ∧ t.1 < g.n_points ∧ t.2.1 < g.n_points ∧
      t.2.2 = g.d2 t.1 t.2.1) ∧
    ∀ i j, i < g.n_points → j < g.n_points → i ≠ j →
      (s(i, j) ∈ g.for_each_pair.map unordered_pair ↔
        g.d2 i j ≤ g.spec.scale * g.spec.scale) := by
  have hne : ∀ t ∈ g.for_each_pair, t.1 ≠ t.2.1 := by
    rintro ⟨a, b, d⟩ ht hab
    simp only at hab
    subst hab
    exact for_each_pair_not_swapped g hgrid hst a a d d ht ht
  refine ⟨?_, fun t ht => ?_, fun i j hi hj hij => ?_⟩
  · refine List.Nodup.map_on ?_ (for_each_pair_nodup g hgrid hst)
    rintro ⟨a, b, d⟩ h1 ⟨a2, b2, d2⟩ h2 heq
    have e1 := ((mem_for_each_pair_iff g hgrid _).mp h1).1
    have e2 := ((mem_for_each_pair_iff g hgrid _).mp h2).1
    simp only at e1 e2
    unfold unordered_pair at heq
    rcases Sym2.eq_iff.mp heq with ⟨rfl, rfl⟩ | ⟨rfl, rfl⟩
    · rw [e1, e2]
    · exact (for_each_pair_not_swapped g hgrid hst _ _ d d2 h1 h2).elim
  · obtain ⟨h1, -, h3, h4, -⟩ := (mem_for_each_pair_iff g hgrid t).mp ht
    exact ⟨hne t ht, h3, h4, h1⟩
  · rw [List.mem_map]
    constructor
    · rintro ⟨⟨a, b, d⟩, ht, heq⟩
      obtain ⟨-, hle, -⟩ := (mem_for_each_pair_iff g hgrid _).mp ht
      unfold unordered_pair at heq
      simp only at hle
      rcases Sym2.eq_iff.mp heq with ⟨rfl, rfl⟩ | ⟨rfl, rfl⟩
      · exact hle
      · rw [d2_comm]; exact hle
    · intro hle
      have hle2 : g.d2 j i ≤ g.spec.scale * g.spec.scale := by rw [d2_comm]; exact hle
      by_cases hk : g.cell_id.getD i 0 = g.cell_id.getD j 0
      · have hi2 : i ∈ g.grid.indices_from_key (g.cell_id.getD i 0) :=
          ((hgrid.1 _).2 i).mpr ⟨hi, rfl⟩
        have hj2 : j ∈ g.grid.indices_from_key (g.cell_id.getD i 0) :=
          ((hgrid.1 _).2 j).mpr ⟨hj, hk.symm⟩
        rcases before_or_after i j hij _ hi2 hj2 with h | h
        · refine ⟨(j, i, g.d2 j i), ?_, Sym2.eq_swap⟩
          apply (mem_for_each_pair_iff g hgrid _).mpr
          refine ⟨rfl, hle2, hj, hi, Or.inl ⟨hk.symm, ?_⟩⟩
          show i ∈ _
          rw [← hk]
          exact h
        · refine ⟨(i, j, g.d2 i j), ?_, rfl⟩
          apply (mem_for_each_pair_iff g hgrid _).mpr
          exact ⟨rfl, hle, hi, hj, Or.inl ⟨hk, h⟩⟩
      · rcases hcov i j hi hj hk hle with h | h
        · refine ⟨(i, j, g.d2 i j), ?_, rfl⟩
          apply (mem_for_each_pair_iff g hgrid _).mpr
          exact ⟨rfl, hle, hi, hj, Or.inr h⟩
        · refine ⟨(j, i, g.d2 j i), ?_, Sym2.eq_swap⟩
          apply (mem_for_each_pair_iff g hgrid _).mpr
          exact ⟨rfl, hle2, hj, hi, Or.inr h⟩

/-- The reference bucket index groups the points by key. -/
theorem of_cells_groups (cell_id : List ℤ) :
    (SparseGrid.of_cells cell_id).Groups cell_id cell_id.length := by
  refine ⟨fun k => ⟨?_, fun p => ?_⟩, List.nodup_dedup _, fun k => ?_⟩
  · exact (List.nodup_range _).filter _
  · simp [SparseGrid.of_cells, List.mem_filter]
  · simp only [SparseGrid.of_cells, List.mem_dedup]
    constructor
    · intro hk
      obtain ⟨p, hp, rfl⟩ := List.getElem_of_mem hk
      exact ⟨p, hp, List.getD_eq_getElem _ _ hp⟩
    · rintro ⟨p, hp, rfl⟩
      rw [List.getD_eq_getElem _ _ hp]
      exact List.getElem_mem _

theorem border_grid_cells : border_grid.cell_id = [0, 1, 0, 303] := by
  with_unfolding_all decide

theorem border_grid_groups :
    border_grid.grid.Groups border_grid.cell_id border_grid.n_points := by
  have h := of_cells_groups border_grid.cell_id
  have hl : border_grid.cell_id.length = border_grid.n_points := by
    rw [border_grid_cells]; rfl
  rw [hl] at h
  exact h

theorem unit_offsets_half : HalfStencil border_grid.offsets := by
  show HalfStencil unit_offsets
  unfold HalfStencil unit_offsets
  decide

theorem border_grid_covered : border_grid.Covered := by
  intro i j hi hj hk hd
  have hi4 : i < 4 := hi
  have hj4 : j < 4 := hj
  rw [border_grid_cells] at hk ⊢
  have key : ∀ a, a < 4 → ∀ b, b < 4 →
      (([0, 1, 0, 303] : List ℤ).getD a 0 ≠ ([0, 1, 0, 303] : List ℤ).getD b 0 ∧
        border_grid.d2 a b ≤ border_grid.spec.scale * border_grid.spec.scale) →
      ([0, 1, 0, 303] : List ℤ).getD b 0 - ([0, 1, 0, 303] : List ℤ).getD a 0
          ∈ unit_offsets ∨
        ([0, 1, 0, 303] : List ℤ).getD a 0 - ([0, 1, 0, 303] : List ℤ).getD b 0
          ∈ unit_offsets := by
    with_unfolding_all decide
  exact key i hi4 j hj4 ⟨hk, hd⟩

/-- C1 on `border_grid`: the hypotheses hold there, and so does the conclusion. -/
theorem C1_for_each_pair_complete_and_duplicate_free_witness :
    (border_grid.grid.Groups border_grid.cell_id border_grid.n_points ∧
      HalfStencil border_grid.offsets ∧ border_grid.Covered) ∧
    (border_grid.for_each_pair.map unordered_pair).Nodup ∧
    (∀ t ∈ border_grid.for_each_pair, t.1 ≠ t.2.1 ∧ t.1 < border_grid.n_points ∧
      t.2.1 < border_grid.n_points ∧ t.2.2 = border_grid.d2 t.1 t.2.1) ∧
    ∀ i j, i < border_grid.n_points → j < border_grid.n_points → i ≠ j →
      (s(i, j) ∈ border_grid.for_each_pair.map unordered_pair ↔
        border_grid.d2 i j ≤ border_grid.spec.scale * border_grid.spec.scale) :=
  ⟨⟨border_grid_groups, unit_offsets_half, border_grid_covered⟩,
    C1_for_each_pair_complete_and_duplicate_free border_grid border_grid_groups
      unit_offsets_half border_grid_covered⟩

end Grid

/-! ## Candidates of the pair traversal -/

namespace Grid

namespace PointGrid

variable {n : ℕ}

theorem within_bucket_eq_calls (g : PointGrid n) (pi : ℕ) :
    ∀ bi : List ℕ, g.within_bucket pi bi
      = (within_bucket_calls pi bi).flatMap fun c => g.wrapper c.1 c.2 := by
  intro bi
  induction bi with
  | nil => rfl
  | cons pj bi ih =>
    rw [within_bucket, within_bucket_calls]
    split
    · rfl
    · rw [List.flatMap_cons, ih]

/-- The traversal applies `wrapper` to each candidate in turn. -/
theorem for_each_pair_eq_candidates (g : PointGrid n) :
    g.for_each_pair = g.candidates.flatMap fun c => g.wrapper c.1 c.2 := by
  unfold for_each_pair candidates intra_bucket_calls
  rw [List.flatMap_assoc]
  refine List.flatMap_congr fun ci _ => ?_
  simp only [List.flatMap_append, List.flatMap_assoc, List.flatMap_map, within_bucket_eq_calls]

theorem wrapper_eq_filter (g : PointGrid n) (cs : List (ℕ × ℕ)) :
    (cs.flatMap fun c => g.wrapper c.1 c.2)
      = (cs.filter fun c => decide (g.d2 c.1 c.2 ≤ g.spec.scale * g.spec.scale)).map
          fun c => (c.1, c.2, g.d2 c.1 c.2) := by
  induction cs with
  | nil => rfl
  | cons c cs ih =>
    rw [List.flatMap_cons, ih, List.filter_cons]
    unfold wrapper
    by_cases h : g.d2 c.1 c.2 > g.spec.scale * g.spec.scale
    · have h2 : ¬ g.d2 c.1 c.2 ≤ g.spec.scale * g.spec.scale := not_le.mpr h
      simp [h, h2]
    · have h2 : g.d2 c.1 c.2 ≤ g.spec.scale * g.spec.scale := not_lt.mp h
      simp [h, h2]

theorem d2_eq_sum_sq (g : PointGrid n) (i j : ℕ) :
    g.d2 i j = ∑ k, (g.position.getD i 0 k - g.position.getD j 0 k) ^ 2 := by
  unfold d2
  refine Finset.sum_congr rfl fun k _ => ?_
  ring

end PointGrid

open PointGrid

/-- C15: `for_each_pair` hands to the callback exactly the candidate pairs whose squared
distance does not exceed `scale * scale`, in candidate order, each with its squared
distance; so every triple handed over carries `d2 = sum of (position[i] - position[j])^2`
and `d2 <= scale * scale`, a candidate with `d2 > scale * scale` is never handed over and a
candidate with `d2 = scale * scale` is. No property of the grid or stencil is used. -/
theorem C15_distance_test_is_exact_filter {n : ℕ} (g : PointGrid n) :
    g.for_each_pair
      = (g.candidates.filter fun c => decide (g.d2 c.1 c.2 ≤ g.spec.scale * g.spec.scale)).map
          (fun c => (c.1, c.2, g.d2 c.1 c.2)) ∧
    (∀ t ∈ g.for_each_pair,
      t.2.2 = ∑ k, (g.position.getD t.1 0 k - g.position.getD t.2.1 0 k) ^ 2 ∧
      t.2.2 ≤ g.spec.scale * g.spec.scale ∧ (t.1, t.2.1) ∈ g.candidates) ∧
    (∀ c ∈ g.candidates, g.d2 c.1 c.2 > g.spec.scale * g.spec.scale →
      ∀ d, (c.1, c.2, d) ∉ g.for_each_pair) ∧
    (∀ c ∈ g.candidates, g.d2 c.1 c.2 = g.spec.scale * g.spec.scale →
      (c.1, c.2, g.d2 c.1 c.2) ∈ g.for_each_pair) := by
  have heq := (for_each_pair_eq_candidates g).trans (wrapper_eq_filter g g.candidates)
  have hmem : ∀ t, t ∈ g.for_each_pair ↔
      ∃ c ∈ g.candidates, g.d2 c.1 c.2 ≤ g.spec.scale * g.spec.scale ∧
        (c.1, c.2, g.d2 c.1 c.2) = t := by
    intro t
    rw [heq, List.mem_map]
    simp only [List.mem_filter, decide_eq_true_eq, and_assoc]
  refine ⟨heq, fun t ht => ?_, fun c _ hgt d hd => ?_, fun c hc he => ?_⟩
  · obtain ⟨c, hc, hle, rfl⟩ := (hmem t).mp ht
    exact ⟨d2_eq_sum_sq g _ _, hle, hc⟩
  · obtain ⟨c2, -, hle, h⟩ := (hmem _).mp hd
    simp only [Prod.mk.injEq] at h
    rw [h.1, h.2.1] at hle
    exact absurd hgt (not_lt.mpr hle)
  · exact (hmem _).mpr ⟨c, hc, le_of_eq he, rfl⟩

end Grid

/-! ## The interaction within a bucket -/

namespace Grid

namespace PointGrid

theorem within_bucket_calls_eq (pi : ℕ) :
    ∀ bi : List ℕ, within_bucket_calls pi bi
      = (bi.takeWhile fun x => decide (x ≠ pi)).map fun pj => (pi, pj) := by
  intro bi
  induction bi with
  | nil => rfl
  | cons c bi ih =>
    rw [within_bucket_calls]
    by_cases h : pi = c
    · subst h
      simp [List.takeWhile]
    · have hc : c ≠ pi := fun h2 => h h2.symm
      simp [h, hc, List.takeWhile_cons, ih]

/-- In a duplicate-free list the elements before position `i` are the first `i` ones. -/
theorem takeWhile_ne_getD :
    ∀ (bi : List ℕ) (i : ℕ), bi.Nodup → i < bi.length →
      (bi.takeWhile fun x => decide (x ≠ bi.getD i 0)) = bi.take i := by
  intro bi
  induction bi with
  | nil => intro i _ h; simp at h
  | cons c bi ih =>
    intro i hnd hi
    rw [List.nodup_cons] at hnd
    cases i with
    | zero => simp [List.takeWhile]
    | succ k =>
      have hk : k < bi.length := by simpa using hi
      have hmem : bi.getD k 0 ∈ bi := by
        rw [List.getD_eq_getElem _ _ hk]; exact List.getElem_mem _
      have hne : c ≠ bi.getD k 0 := fun h => hnd.1 (h ▸ hmem)
      rw [List.getD_cons_succ, List.takeWhile_cons, List.take_succ_cons, ih k hnd.2 hk,
        if_pos (decide_eq_true hne)]

theorem take_eq_map_getD (bi : List ℕ) (i : ℕ) (hi : i ≤ bi.length) :
    bi.take i = (List.range i).map fun j => bi.getD j 0 := by
  apply List.ext_getElem
  · simp [hi]
  · intro j h1 h2
    have hj : j < i := by simpa using h2
    simp only [List.getElem_take, List.getElem_map, List.getElem_range]
    exact (List.getD_eq_getElem _ _ (by omega)).symm

theorem map_getD_range_nat (l : List ℕ) :
    (List.range l.length).map (fun i => l.getD i 0) = l := by
  apply List.ext_getElem
  · simp
  · intro i h1 h2
    simp only [List.getElem_map, List.getElem_range]
    exact List.getD_eq_getElem _ _ h2

theorem sum_range_id_list (m : ℕ) : ((List.range m).map fun i => i).sum = m * (m - 1) / 2 := by
  rw [← Finset.sum_range_id m]
  induction m with
  | zero => rfl
  | succ m ih =>
    rw [List.range_succ, List.map_append, List.sum_append, ih, Finset.sum_range_succ]
    simp

theorem mem_intra_bucket_calls (bi : List ℕ) (c : ℕ × ℕ) :
    c ∈ intra_bucket_calls bi ↔
      c.1 ∈ bi ∧ c.2 ∈ bi.takeWhile fun x => decide (x ≠ c.1) := by
  unfold intra_bucket_calls
  simp only [List.mem_flatMap, within_bucket_calls_eq, List.mem_map]
  constructor
  · rintro ⟨pi, hpi, pj, hpj, rfl⟩
    exact ⟨hpi, hpj⟩
  · rintro ⟨h1, h2⟩
    exact ⟨c.1, h1, c.2, h2, rfl⟩

theorem intra_bucket_calls_nodup (bi : List ℕ) (hnd : bi.Nodup) :
    (intra_bucket_calls bi).Nodup := by
  unfold intra_bucket_calls
  refine nodup_flatMap_of_tag _ _ (fun c => c.1) id hnd (fun _ _ _ _ h => h)
    (fun pi _ => ?_) (fun pi _ c hc => ?_)
  · rw [within_bucket_calls_eq]
    refine List.Nodup.map (fun a b h => ?_) (hnd.sublist (List.takeWhile_sublist _))
    simp only [Prod.mk.injEq, true_and] at h
    exact h
  · rw [within_bucket_calls_eq, List.mem_map] at hc
    obtain ⟨pj, -, rfl⟩ := hc
    rfl

end PointGrid

open PointGrid

/-- C16: for a bucket whose member sequence `b[0..m)` has pairwise distinct entries, the
interaction within the bucket calls `wrapper` with exactly the pairs `(b[i], b[j])`,
`0 <= j < i < m`, in that order: `m * (m - 1) / 2` calls, each unordered pair of bucket
members exactly once, never a pair `(p, p)`; and what reaches the callback is `wrapper`
applied to these calls. -/
theorem C16_intra_bucket_candidates (bi : List ℕ) (hnd : bi.Nodup) :
    intra_bucket_calls bi
      = (List.range bi.length).flatMap
          (fun i => (List.range i).map fun j => (bi.getD i 0, bi.getD j 0)) ∧
    (intra_bucket_calls bi).length = bi.length * (bi.length - 1) / 2 ∧
    ((intra_bucket_calls bi).map fun c => s(c.1, c.2)).Nodup ∧
    (∀ c ∈ intra_bucket_calls bi, c.1 ≠ c.2 ∧ c.1 ∈ bi ∧ c.2 ∈ bi) ∧
    (∀ p q, p ∈ bi → q ∈ bi → p ≠ q →
      s(p, q) ∈ (intra_bucket_calls bi).map fun c => s(c.1, c.2)) ∧
    ∀ {n : ℕ} (g : PointGrid n), (bi.flatMap fun pi => g.within_bucket pi bi)
      = (intra_bucket_calls bi).flatMap fun c => g.wrapper c.1 c.2 := by
  have hlist : intra_bucket_calls bi
      = (List.range bi.length).flatMap
          (fun i => (List.range i).map fun j => (bi.getD i 0, bi.getD j 0)) := by
    unfold intra_bucket_calls
    conv_lhs => rw [← map_getD_range_nat bi]
    rw [List.flatMap_map]
    refine List.flatMap_congr fun i hi => ?_
    have hi2 : i < bi.length := List.mem_range.mp hi
    rw [map_getD_range_nat bi, within_bucket_calls_eq, takeWhile_ne_getD bi i hnd hi2,
      take_eq_map_getD bi i (le_of_lt hi2), List.map_map]
    rfl
  have hne : ∀ c ∈ intra_bucket_calls bi, c.1 ≠ c.2 := by
    intro c hc heq
    obtain ⟨-, h2⟩ := (mem_intra_bucket_calls bi c).mp hc
    rw [← heq] at h2
    have h3 : decide (c.1 ≠ c.1) = true :=
      List.mem_takeWhile_imp (p := fun x => decide (x ≠ c.1)) h2
    exact absurd rfl (of_decide_eq_true h3)
  refine ⟨hlist, ?_, ?_, fun c hc => ?_, fun p q hp hq hpq => ?_, fun g => ?_⟩
  · rw [hlist, List.length_flatMap]
    have : (List.length ∘ fun i => (List.range i).map fun j => (bi.getD i 0, bi.getD j 0))
        = fun i => i := by
      funext i
      rw [Function.comp_apply, List.length_map, List.length_range]
    rw [this]
    exact sum_range_id_list _
  · refine List.Nodup.map_on ?_ (intra_bucket_calls_nodup bi hnd)
    rintro ⟨a, b⟩ h1 ⟨a2, b2⟩ h2 heq
    rcases Sym2.eq_iff.mp heq with ⟨rfl, rfl⟩ | ⟨rfl, rfl⟩
    · rfl
    · exfalso
      exact not_before_both _ _ bi
        ⟨((mem_intra_bucket_calls bi _).mp h2).2, ((mem_intra_bucket_calls bi _).mp h1).2⟩
  · obtain ⟨h1, h2⟩ := (mem_intra_bucket_calls bi c).mp hc
    exact ⟨hne c hc, h1, (List.takeWhile_sublist _).subset h2⟩
  · rw [List.mem_map]
    rcases before_or_after p q hpq bi hp hq with h | h
    · exact ⟨(q, p), (mem_intra_bucket_calls bi _).mpr ⟨hq, h⟩, Sym2.eq_swap⟩
    · exact ⟨(p, q), (mem_intra_bucket_calls bi _).mpr ⟨hp, h⟩, rfl⟩
  · unfold intra_bucket_calls
    rw [List.flatMap_assoc]
    exact List.flatMap_congr fun pi _ => within_bucket_eq_calls g pi bi

end Grid

/-! ## The pair traversal as a set of unordered pairs -/

namespace Grid

namespace PointGrid

variable {n : ℕ}

theorem for_each_pair_unordered_nodup (g : PointGrid n)
    (hgrid : g.grid.Groups g.cell_id g.n_points) (hst : HalfStencil g.offsets) :
    (g.for_each_pair.map unordered_pair).Nodup := by
  refine List.Nodup.map_on ?_ (for_each_pair_nodup g hgrid hst)
  rintro ⟨a, b, d⟩ h1 ⟨a2, b2, d2⟩ h2 heq
  have e1 := ((mem_for_each_pair_iff g hgrid _).mp h1).1
  have e2 := ((mem_for_each_pair_iff g hgrid _).mp h2).1
  simp only at e1 e2
  unfold unordered_pair at heq
  rcases Sym2.eq_iff.mp heq with ⟨rfl, rfl⟩ | ⟨rfl, rfl⟩
  · rw [e1, e2]
  · exact (for_each_pair_not_swapped g hgrid hst _ _ d d2 h1 h2).elim

/-- What the traversal hands over, as unordered pairs: two distinct valid points within
`scale` of each other, provided the stencil reaches from one of their keys to the other. -/
theorem mem_for_each_pair_unordered (g : PointGrid n)
    (hgrid : g.grid.Groups g.cell_id g.n_points) (hst : HalfStencil g.offsets) (i j : ℕ) :
    s(i, j) ∈ g.for_each_pair.map unordered_pair ↔
      i ≠ j ∧ i < g.n_points ∧ j < g.n_points ∧ g.d2 i j ≤ g.spec.scale * g.spec.scale ∧
      (g.cell_id.getD i 0 = g.cell_id.getD j 0 ∨
        g.cell_id.getD j 0 - g.cell_id.getD i 0 ∈ g.offsets ∨
        g.cell_id.getD i 0 - g.cell_id.getD j 0 ∈ g.offsets) := by
  rw [List.mem_map]
  constructor
  · rintro ⟨⟨a, b, d⟩, ht, heq⟩
    have hab : a ≠ b := by
      rintro rfl
      exact for_each_pair_not_swapped g hgrid hst a a d d ht ht
    obtain ⟨-, hle, ha, hb, hc⟩ := (mem_for_each_pair_iff g hgrid _).mp ht
    simp only at hle ha hb hc
    have hc2 : g.cell_id.getD a 0 = g.cell_id.getD b 0 ∨
        g.cell_id.getD b 0 - g.cell_id.getD a 0 ∈ g.offsets := hc.imp (fun h => h.1) id
    unfold unordered_pair at heq
    rcases Sym2.eq_iff.mp heq with ⟨rfl, rfl⟩ | ⟨rfl, rfl⟩
    · exact ⟨hab, ha, hb, hle, hc2.imp id Or.inl⟩
    · refine ⟨hab.symm, hb, ha, by rw [d2_comm]; exact hle, ?_⟩
      rcases hc2 with h | h
      · exact Or.inl h.symm
      · exact Or.inr (Or.inr h)
  · rintro ⟨hij, hi, hj, hle, hc⟩
    have hle2 : g.d2 j i ≤ g.spec.scale * g.spec.scale := by rw [d2_comm]; exact hle
    rcases hc with hk | h | h
    · have hi2 : i ∈ g.grid.indices_from_key (g.cell_id.getD i 0) :=
        ((hgrid.1 _).2 i).mpr ⟨hi, rfl⟩
      have hj2 : j ∈ g.grid.indices_from_key (g.cell_id.getD i 0) :=
        ((hgrid.1 _).2 j).mpr ⟨hj, hk.symm⟩
      rcases before_or_after i j hij _ hi2 hj2 with h | h
      · refine ⟨(j, i, g.d2 j i), ?_, Sym2.eq_swap⟩
        apply (mem_for_each_pair_iff g hgrid _).mpr
        refine ⟨rfl, hle2, hj, hi, Or.inl ⟨hk.symm, ?_⟩⟩
        show i ∈ _
        rw [← hk]
        exact h
      · refine ⟨(i, j, g.d2 i j), ?_, rfl⟩
        apply (mem_for_each_pair_iff g hgrid _).mpr
        exact ⟨rfl, hle, hi, hj, Or.inl ⟨hk, h⟩⟩
    · refine ⟨(i, j, g.d2 i j), ?_, rfl⟩
      apply (mem_for_each_pair_iff g hgrid _).mpr
      exact ⟨rfl, hle, hi, hj, Or.inr h⟩
    · refine ⟨(j, i, g.d2 j i), ?_, Sym2.eq_swap⟩
      apply (mem_for_each_pair_iff g hgrid _).mpr
      exact ⟨rfl, hle2, hj, hi, Or.inr h⟩

theorem d2_congr (g h : PointGrid n) (hp : g.position = h.position) (i j : ℕ) :
    g.d2 i j = h.d2 i j := by
  unfold d2
  rw [hp]

end PointGrid

open PointGrid

theorem plane_points_d2 :
    ∀ a, a < 4 → ∀ b, b < 4 → (a = b ∨ (plane_grid.d2 a b ≤ 1 ↔ a ≤ 2 ∧ b ≤ 2)) := by
  with_unfolding_all decide

theorem plane_points_cells :
    (fun i => InteractionMap.cast_fixed (plane_points.getD 0 0 i / 1))
        = (fun i => InteractionMap.cast_fixed (plane_points.getD 1 0 i / 1)) ∧
    (fun i => InteractionMap.cast_fixed (plane_points.getD 0 0 i / 1))
        = (fun i => InteractionMap.cast_fixed (plane_points.getD 2 0 i / 1)) := by
  with_unfolding_all decide

/-- C11: the four points `(0,0), (0.5,0), (0,0.5), (10,10)` with `scale = 1`, bucketed by
`cell = truncate(position / 1)` under any key function, any bucket index that groups the
points by key and any half stencil: the unordered pairs handed to the callback are
`{0,1}, {0,2}, {1,2}`, each exactly once, and point `3` is in none. -/
theorem C11_example_pairs (sg : SparseGridBuilder) (spec : spec_t 2) (offsets : List ℤ)
    (hscale : spec.scale = 1)
    (hcell : ∀ v, spec.cell_from_position v = fun i => InteractionMap.cast_fixed (v i / 1))
    (hgrid : (construct_with_offsets sg spec plane_points offsets).grid.Groups
      (construct_with_offsets sg spec plane_points offsets).cell_id
      (construct_with_offsets sg spec plane_points offsets).n_points)
    (hst : HalfStencil offsets) :
    ((construct_with_offsets sg spec plane_points offsets).for_each_pair.map
        unordered_pair).Perm [s(0, 1), s(0, 2), s(1, 2)] ∧
    ∀ t ∈ (construct_with_offsets sg spec plane_points offsets).for_each_pair,
      t.1 ≠ 3 ∧ t.2.1 ≠ 3 := by
  obtain ⟨g, hg⟩ : ∃ g, g = construct_with_offsets sg spec plane_points offsets := ⟨_, rfl⟩
  rw [← hg] at hgrid ⊢
  have hn : g.n_points = 4 := by rw [hg]; rfl
  have hoff : g.offsets = offsets := by rw [hg]; rfl
  have hsc : g.spec.scale * g.spec.scale = 1 := by
    rw [hg]
    show spec.scale * spec.scale = 1
    rw [hscale]
    norm_num
  have hd : ∀ a, a < 4 → ∀ b, b < 4 → a ≠ b → (g.d2 a b ≤ 1 ↔ a ≤ 2 ∧ b ≤ 2) := by
    intro a ha b hb hab
    rw [d2_congr g plane_grid (by rw [hg]; rfl) a b]
    exact (plane_points_d2 a ha b hb).resolve_left hab
  have hkey : ∀ a, a ≤ 2 → g.cell_id.getD a 0 = g.cell_id.getD 0 0 := by
    intro a ha
    have hc : ∀ v, v < 4 → g.cell_id.getD v 0
        = spec.hash_from_cell (fun i => InteractionMap.cast_fixed (plane_points.getD v 0 i / 1)) := by
      intro v hv
      rw [hg]
      show (init_cells spec plane_points 4).getD v 0 = _
      unfold init_cells
      rw [List.getD_eq_getElem _ _ (by simpa using hv), List.getElem_map, List.getElem_range,
        hcell]
    rw [hc a (by omega), hc 0 (by omega)]
    interval_cases a
    · rfl
    · rw [plane_points_cells.1]
    · rw [plane_points_cells.2]
  have hst2 : HalfStencil g.offsets := by rw [hoff]; exact hst
  have hmem : ∀ i j, s(i, j) ∈ g.for_each_pair.map unordered_pair ↔
      i ≠ j ∧ i ≤ 2 ∧ j ≤ 2 := by
    intro i j
    rw [mem_for_each_pair_unordered g hgrid hst2, hn, hsc]
    constructor
    · rintro ⟨hij, hi, hj, hle, -⟩
      exact ⟨hij, (hd i hi j hj hij).mp hle⟩
    · rintro ⟨hij, hi, hj⟩
      refine ⟨hij, by omega, by omega, (hd i (by omega) j (by omega) hij).mpr ⟨hi, hj⟩,
        Or.inl ?_⟩
      rw [hkey i hi, hkey j hj]
  refine ⟨?_, fun t ht => ?_⟩
  · rw [List.perm_ext_iff_of_nodup (for_each_pair_unordered_nodup g hgrid hst2) (by decide)]
    intro z
    induction z using Sym2.ind with
    | _ i j =>
      rw [hmem]
      simp only [List.mem_cons, Sym2.eq_iff, List.mem_singleton, List.not_mem_nil, or_false]
      omega
  · have h2 : s(t.1, t.2.1) ∈ g.for_each_pair.map unordered_pair :=
      List.mem_map.mpr ⟨t, ht, rfl⟩
    rw [hmem] at h2
    omega

end Grid

/-! ## Witnesses for the pair traversal and the update path -/

namespace Grid

open PointGrid

theorem plane_grid_groups :
    (construct_with_offsets SparseGridBuilder.reference unit_spec plane_points unit_offsets).grid.Groups
      (construct_with_offsets SparseGridBuilder.reference unit_spec plane_points unit_offsets).cell_id
      (construct_with_offsets SparseGridBuilder.reference unit_spec plane_points unit_offsets).n_points := by
  have h := of_cells_groups plane_grid.cell_id
  have hl : plane_grid.cell_id.length = 4 := by
    show (init_cells unit_spec plane_points 4).length = 4
    simp [init_cells]
  rw [hl] at h
  exact h

/-- C11 under `unit_spec`, the reference bucket index and the stencil `unit_offsets`. -/
theorem C11_example_pairs_witness :
    (unit_spec.scale = 1 ∧ HalfStencil unit_offsets) ∧
    (plane_grid.for_each_pair.map unordered_pair).Perm [s(0, 1), s(0, 2), s(1, 2)] ∧
    ∀ t ∈ plane_grid.for_each_pair, t.1 ≠ 3 ∧ t.2.1 ≠ 3 :=
  ⟨⟨rfl, unit_offsets_half⟩,
    C11_example_pairs SparseGridBuilder.reference unit_spec unit_offsets rfl (fun _ => rfl)
      plane_grid_groups unit_offsets_half⟩

/-- C16 on the bucket `3, 1, 4`. -/
theorem C16_intra_bucket_candidates_witness :
    [3, 1, 4].Nodup ∧
    intra_bucket_calls [3, 1, 4]
      = (List.range [3, 1, 4].length).flatMap
          (fun i => (List.range i).map fun j => ([3, 1, 4].getD i 0, [3, 1, 4].getD j 0)) ∧
    (intra_bucket_calls [3, 1, 4]).length = [3, 1, 4].length * ([3, 1, 4].length - 1) / 2 ∧
    ((intra_bucket_calls [3, 1, 4]).map fun c => s(c.1, c.2)).Nodup ∧
    (∀ c ∈ intra_bucket_calls [3, 1, 4], c.1 ≠ c.2 ∧ c.1 ∈ [3, 1, 4] ∧ c.2 ∈ [3, 1, 4]) ∧
    (∀ p q, p ∈ [3, 1, 4] → q ∈ [3, 1, 4] → p ≠ q →
      s(p, q) ∈ (intra_bucket_calls [3, 1, 4]).map fun c => s(c.1, c.2)) ∧
    ∀ {n : ℕ} (g : PointGrid n), ([3, 1, 4].flatMap fun pi => g.within_bucket pi [3, 1, 4])
      = (intra_bucket_calls [3, 1, 4]).flatMap fun c => g.wrapper c.1 c.2 :=
  ⟨by decide, C16_intra_bucket_candidates [3, 1, 4] (by decide)⟩

/-- The update path read as a function of values: the result of `update` is the grid built
by `PointGrid(g.spec, p, g.grid.permutation, g.offsets)`, with the spec and the stencil of
`g`, the positions `p` and their count, the hashes of `p` as `cell_id`, and the bucket index
built from these hashes and the permutation of `g`. -/
theorem update_fields {n : ℕ} (sg : SparseGridBuilder) (g : PointGrid n)
    (p : List (vector_t n)) :
    g.update sg p = construct_with_permutation sg g.spec p g.grid.permutation g.offsets ∧
    (g.update sg p).spec = g.spec ∧ (g.update sg p).offsets = g.offsets ∧
    (g.update sg p).position = p ∧ (g.update sg p).n_points = p.length ∧
    (g.update sg p).cell_id.length = p.length ∧
    (∀ v, v < p.length → (g.update sg p).cell_id.getD v 0
      = g.spec.hash_from_cell (g.spec.cell_from_position (p.getD v 0))) ∧
    (g.update sg p).cell_id = (construct_with_offsets sg g.spec p g.offsets).cell_id ∧
    (g.update sg p).cell_id = (construct sg g.spec p).cell_id ∧
    (g.update sg p).grid
      = sg.from_cells_and_permutation (g.update sg p).cell_id g.grid.permutation := by
  refine ⟨rfl, rfl, rfl, rfl, rfl, ?_, fun v hv => ?_, rfl, rfl, rfl⟩
  · show (init_cells g.spec p p.length).length = p.length
    simp [init_cells]
  · show (init_cells g.spec p p.length).getD v 0 = _
    unfold init_cells
    rw [List.getD_eq_getElem _ _ (by simpa using hv), List.getElem_map, List.getElem_range]

end Grid

/-! ## Box queries on the example scenario -/

namespace InteractionMap

theorem raised_grid_constructed : PointGrid.construct raised_points 1 = .ok raised_grid := by
  with_unfolding_all decide

theorem irange_fixed_eq_nil {a b : ℤ} (h : b ≤ a) : irange_fixed a b = [] := by
  unfold irange_fixed
  have : (b - a).toNat = 0 := by omega
  rw [this]
  rfl

/-- A grid with no cell layer along the third axis answers every box query with nothing. -/
theorem PointGrid.box_query_nil_of_shape (g : PointGrid 3) (h : g.shape 2 ≤ 0) (box : box_t 3) :
    g.for_each_vertex_in_bounding_box box = [] := by
  unfold PointGrid.for_each_vertex_in_bounding_box
  simp only
  split
  · rfl
  · rw [List.flatMap_eq_nil_iff]
    intro x _
    rw [List.flatMap_eq_nil_iff]
    intro y _
    rw [irange_fixed_eq_nil]
    · rfl
    · exact le_trans (min_le_right _ _) (le_trans h (le_max_right _ _))

/-- C12 at `raised_points`, the example scenario with the constant third coordinate `1`:
construction with lengthscale `1` succeeds, the shape along the third axis is `0`, and
`for_each_vertex_in_bounding_box` hands no vertex to the callback, for the box
`[(0,0,1),(1,1,1)]` and for every other box, while the naive query hands over `0, 1, 2`.
With the constant third coordinate `0` the query does hand over `0, 1, 2`. -/
theorem C12_example_box_query_raised :
    PointGrid.construct raised_points 1 = .ok raised_grid ∧ raised_grid.shape 2 = 0 ∧
    raised_grid.for_each_vertex_in_bounding_box raised_box = [] ∧
    (∀ box, raised_grid.for_each_vertex_in_bounding_box box = []) ∧
    raised_grid.for_each_vertex_in_bounding_box_naive raised_box = [0, 1, 2] ∧
    PointGrid.construct sample_points 1 = .ok sample_grid ∧
    sample_grid.for_each_vertex_in_bounding_box flat_box = [0, 1, 2] := by
  refine ⟨raised_grid_constructed, rfl, ?_, ?_, ?_, sample_grid_constructed, ?_⟩
  · exact PointGrid.box_query_nil_of_shape raised_grid (le_of_eq rfl) raised_box
  · exact fun box => PointGrid.box_query_nil_of_shape raised_grid (le_of_eq rfl) box
  · with_unfolding_all decide
  · with_unfolding_all decide

/-- C14 at `shifted_points` (two points, lengthscale `1 > 0`): the extents are the
componentwise minimum and maximum, `truncate((extents.max - extents.min) / lengthscale) + 1`
is `1` along the first axis, but the shape computed by `init_shape` is `0` there: it is not
`>= 1`, and the cell coordinate `0` of point `0` is not below it. -/
theorem C14_shape_too_small :
    shifted_points ≠ [] ∧ (0 : ℚ) < 1 ∧
    PointGrid.construct shifted_points 1 = .ok shifted_grid ∧
    shifted_grid.extents = ⟨![2, 0, 0], ![5 / 2, 0, 0]⟩ ∧
    cast_fixed ((shifted_grid.extents.row1 0 - shifted_grid.extents.row0 0)
      / shifted_grid.lengthscale) + 1 = 1 ∧
    shifted_grid.shape 0 = 0 ∧ ¬ (1 ≤ shifted_grid.shape 0) ∧
    shifted_grid.cell_id.getD 0 0 0 = 0 ∧
    ¬ (shifted_grid.cell_id.getD 0 0 0 < shifted_grid.shape 0) := by
  refine ⟨by decide, by decide, shifted_grid_constructed, ?_⟩
  with_unfolding_all decide

/-- The hash is additive: the hash of a difference of cells is the difference of the
hashes. -/
theorem hash_from_cell_sub {n : ℕ} (strides : strides_t n) (a b : cell_t n) :
    hash_from_cell strides (fun i => a i - b i)
      = hash_from_cell strides a - hash_from_cell strides b := by
  unfold hash_from_cell
  rw [← Finset.sum_sub_distrib]
  refine Finset.sum_congr rfl fun i _ => ?_
  ring

/-- The comparator `lex` compares hash keys. -/
theorem lex_iff {n : ℕ} (strides : strides_t n) (cell_id : List (cell_t n)) (l r : ℕ) :
    lex strides cell_id l r = true ↔
      hash_from_cell strides (cell_id.getD l 0) < hash_from_cell strides (cell_id.getD r 0) := by
  unfold lex
  rw [decide_eq_true_eq, hash_from_cell_sub]
  constructor <;> intro h <;> linarith

/-- The permutation lists the points in non-decreasing hash key. -/
theorem init_permutation_sorted {n : ℕ} (n_points : ℕ) (strides : strides_t n)
    (cell_id : List (cell_t n)) :
    (init_permutation n_points strides cell_id).Sorted fun l r =>
      hash_from_cell strides (cell_id.getD l 0) ≤ hash_from_cell strides (cell_id.getD r 0) := by
  unfold init_permutation sort
  have hrel : (fun a b : ℕ => lex strides cell_id b a = false)
      = fun l r => hash_from_cell strides (cell_id.getD l 0)
          ≤ hash_from_cell strides (cell_id.getD r 0) := by
    funext a b
    rw [← Bool.not_eq_true, lex_iff, not_lt]
  have htot : IsTotal ℕ fun l r => hash_from_cell strides (cell_id.getD l 0)
      ≤ hash_from_cell strides (cell_id.getD r 0) := ⟨fun a b => le_total _ _⟩
  have htr : IsTrans ℕ fun l r => hash_from_cell strides (cell_id.getD l 0)
      ≤ hash_from_cell strides (cell_id.getD r 0) := ⟨fun a b c h1 h2 => le_trans h1 h2⟩
  have := @List.sorted_insertionSort ℕ (fun l r => hash_from_cell strides (cell_id.getD l 0)
      ≤ hash_from_cell strides (cell_id.getD r 0)) _ htot htr (irange 0 n_points)
  convert this using 2

/-- C20 at `mixed_points` (lengthscale `1 > 0`): `lex` is the comparison of hash keys and
the permutation `0, 1, 2, 3` returned by `init_permutation` has the non-decreasing hash keys
`1, 1, 1, 1`, but the cells under it are `(1,0,0), (0,1,0), (1,0,0), (1,0,0)`: the points
`0` and `2` of the same cell are separated by point `1` of another cell. -/
theorem C20_same_cell_not_contiguous :
    PointGrid.construct mixed_points 1 = .ok mixed_grid ∧
    mixed_grid.permutation
      = init_permutation mixed_grid.n_points mixed_grid.strides mixed_grid.cell_id ∧
    mixed_grid.permutation = [0, 1, 2, 3] ∧
    (∀ l r, lex mixed_grid.strides mixed_grid.cell_id l r = true ↔
      hash_from_cell mixed_grid.strides (mixed_grid.cell_id.getD l 0)
        < hash_from_cell mixed_grid.strides (mixed_grid.cell_id.getD r 0)) ∧
    (mixed_grid.permutation.map fun v =>
      hash_from_cell mixed_grid.strides (mixed_grid.cell_id.getD v 0)) = [1, 1, 1, 1] ∧
    (mixed_grid.permutation.map fun v => mixed_grid.cell_id.getD v 0)
      = [![1, 0, 0], ![0, 1, 0], ![1, 0, 0], ![1, 0, 0]] ∧
    mixed_grid.cell_id.getD (mixed_grid.permutation.getD 0 0) 0
      = mixed_grid.cell_id.getD (mixed_grid.permutation.getD 2 0) 0 ∧
    mixed_grid.cell_id.getD (mixed_grid.permutation.getD 1 0) 0
      ≠ mixed_grid.cell_id.getD (mixed_grid.permutation.getD 0 0) 0 := by
  refine ⟨mixed_grid_constructed, ?_, ?_, fun l r => lex_iff _ _ l r, ?_⟩
  · with_unfolding_all decide
  · rfl
  · with_unfolding_all decide

end InteractionMap

/-! ## Extents and the naive box query -/

namespace InteractionMap

theorem foldl_extents_bounds {n : ℕ} :
    ∀ (ps : List (vector_t n)) (e : box_t n),
      (∀ i, (ps.foldl (fun e q => (⟨fun i => min (e.row0 i) (q i),
            fun i => max (e.row1 i) (q i)⟩ : box_t n)) e).row0 i ≤ e.row0 i ∧
          e.row1 i ≤ (ps.foldl (fun e q => (⟨fun i => min (e.row0 i) (q i),
            fun i => max (e.row1 i) (q i)⟩ : box_t n)) e).row1 i) ∧
      ∀ q ∈ ps, ∀ i,
        (ps.foldl (fun e q => (⟨fun i => min (e.row0 i) (q i),
            fun i => max (e.row1 i) (q i)⟩ : box_t n)) e).row0 i ≤ q i ∧
          q i ≤ (ps.foldl (fun e q => (⟨fun i => min (e.row0 i) (q i),
            fun i => max (e.row1 i) (q i)⟩ : box_t n)) e).row1 i := by
  intro ps
  induction ps with
  | nil => intro e; simp
  | cons p ps ih =>
    intro e
    rw [List.foldl_cons]
    obtain ⟨h1, h2⟩ := ih ⟨fun i => min (e.row0 i) (p i), fun i => max (e.row1 i) (p i)⟩
    refine ⟨fun i => ⟨le_trans (h1 i).1 (min_le_left _ _), le_trans (le_max_left _ _) (h1 i).2⟩,
      fun q hq i => ?_⟩
    rcases List.mem_cons.mp hq with rfl | hq
    · exact ⟨le_trans (h1 i).1 (min_le_right _ _), le_trans (le_max_right _ _) (h1 i).2⟩
    · exact h2 q hq i

/-- The extents bound every point from below and above on every axis. -/
theorem init_extents_bounds {n : ℕ} (position : List (vector_t n)) :
    ∀ p ∈ position, ∀ i,
      (init_extents position).row0 i ≤ p i ∧ p i ≤ (init_extents position).row1 i := by
  cases position with
  | nil => intro p hp; simp at hp
  | cons p0 ps =>
    intro p hp i
    obtain ⟨h1, h2⟩ := foldl_extents_bounds ps ⟨p0, p0⟩
    rcases List.mem_cons.mp hp with rfl | hp
    · exact h1 i
    · exact h2 p hp i

theorem PointGrid.in_box_iff {n : ℕ} (g : PointGrid n) (box : box_t n) (v : ℕ) :
    g.in_box box v = true ↔
      ∀ i, box.row0 i ≤ g.position.getD v 0 i ∧ g.position.getD v 0 i ≤ box.row1 i := by
  unfold PointGrid.in_box
  simp only [Bool.not_eq_true', Bool.or_eq_false_iff, decide_eq_false_iff_not, not_exists,
    not_lt, gt_iff_lt]
  exact ⟨fun h i => ⟨h.1 i, h.2 i⟩, fun h => ⟨fun i => (h i).1, fun i => (h i).2⟩⟩

theorem PointGrid.built_position_bounds {n : ℕ} {position : List (vector_t n)}
    {lengthscale : ℚ} {g : PointGrid n} (h : PointGrid.Built position lengthscale g) (v : ℕ)
    (hv : v < g.n_points) (i : Fin n) :
    g.extents.row0 i ≤ g.position.getD v 0 i ∧ g.position.getD v 0 i ≤ g.extents.row1 i := by
  rw [h.extents_eq, h.position_eq]
  rw [h.n_points_eq] at hv
  apply init_extents_bounds
  rw [List.getD_eq_getElem _ _ hv]
  exact List.getElem_mem _

/-- C19: on every constructed grid the naive box query hands to the callback exactly the
indices `v` in `[0, n_points)` with `box.min <= position[v] <= box.max` on every axis, in
increasing order; its early exit loses nothing, because every point lies within the
extents. -/
theorem C19_naive_query_exact {n : ℕ} (position : List (vector_t n)) (lengthscale : ℚ)
    (g : PointGrid n) (h : PointGrid.construct position lengthscale = .ok g) (box : box_t n) :
    g.for_each_vertex_in_bounding_box_naive box
      = (List.range g.n_points).filter (fun v =>
          decide (∀ i, box.row0 i ≤ g.position.getD v 0 i ∧
            g.position.getD v 0 i ≤ box.row1 i)) ∧
    (g.for_each_vertex_in_bounding_box_naive box).Sorted (· < ·) ∧
    (∀ v, v ∈ g.for_each_vertex_in_bounding_box_naive box ↔
      v < g.n_points ∧ ∀ i, box.row0 i ≤ g.position.getD v 0 i ∧
        g.position.getD v 0 i ≤ box.row1 i) ∧
    (∀ v, v < g.n_points → ∀ i,
      g.extents.row0 i ≤ g.position.getD v 0 i ∧ g.position.getD v 0 i ≤ g.extents.row1 i) := by
  have hb := PointGrid.built_of_construct h
  have hfilter : (List.range g.n_points).filter (fun v => g.in_box box v)
      = (List.range g.n_points).filter (fun v =>
          decide (∀ i, box.row0 i ≤ g.position.getD v 0 i ∧
            g.position.getD v 0 i ≤ box.row1 i)) := by
    refine List.filter_congr fun v _ => ?_
    rw [Bool.eq_iff_iff, PointGrid.in_box_iff, decide_eq_true_eq]
  have heq : g.for_each_vertex_in_bounding_box_naive box
      = (List.range g.n_points).filter (fun v =>
          decide (∀ i, box.row0 i ≤ g.position.getD v 0 i ∧
            g.position.getD v 0 i ≤ box.row1 i)) := by
    unfold PointGrid.for_each_vertex_in_bounding_box_naive
    rw [irange_zero, hfilter]
    split
    · rename_i hbail
      symm
      rw [List.filter_eq_nil_iff]
      intro v hv hin
      rw [decide_eq_true_eq] at hin
      have hext := PointGrid.built_position_bounds hb v (List.mem_range.mp hv)
      simp only [Bool.or_eq_true, decide_eq_true_eq] at hbail
      rcases hbail with ⟨i, hi⟩ | ⟨i, hi⟩
      · exact absurd (le_trans (hin i).1 (hext i).2) (not_le.mpr hi)
      · exact absurd (le_trans (hext i).1 (hin i).2) (not_le.mpr hi)
    · rfl
  refine ⟨heq, ?_, fun v => ?_, fun v hv i => PointGrid.built_position_bounds hb v hv i⟩
  · rw [heq]
    exact (List.sorted_lt_range _).filter _
  · rw [heq, List.mem_filter, List.mem_range, decide_eq_true_eq]

/-- C19 on the grid over `sample_points` and the box `flat_box`. -/
theorem C19_naive_query_exact_witness :
    PointGrid.construct sample_points 1 = .ok sample_grid ∧
    sample_grid.for_each_vertex_in_bounding_box_naive flat_box
      = (List.range sample_grid.n_points).filter (fun v =>
          decide (∀ i, flat_box.row0 i ≤ sample_grid.position.getD v 0 i ∧
            sample_grid.position.getD v 0 i ≤ flat_box.row1 i)) ∧
    (sample_grid.for_each_vertex_in_bounding_box_naive flat_box).Sorted (· < ·) :=
  ⟨sample_grid_constructed,
    (C19_naive_query_exact sample_points 1 sample_grid sample_grid_constructed flat_box).1,
    (C19_naive_query_exact sample_points 1 sample_grid sample_grid_constructed flat_box).2.1⟩

end InteractionMap

/-! ## Buckets are runs of one cell -/

namespace InteractionMap

/-- A position whose value differs from the one before it is kept by `adjacent_skip`. -/
theorem mem_adjacent_skip_enumFrom {α : Type} [DecidableEq α] (d : α) :
    ∀ (l : List α) (prev : ℕ × α) (k j : ℕ), j < l.length →
      (prev.2 :: l).getD j d ≠ l.getD j d →
      k + j ∈ (adjacent_skip (fun a b : ℕ × α => decide (a.2 ≠ b.2)) prev
        (l.enumFrom k)).map Prod.fst := by
  intro l
  induction l with
  | nil => intro prev k j hj; simp at hj
  | cons b l ih =>
    intro prev k j hj hne
    rw [List.enumFrom_cons, adjacent_skip]
    cases j with
    | zero =>
      have h1 : prev.2 ≠ b := hne
      simp only [h1, ne_eq, not_false_eq_true, decide_True, if_true, List.map_cons,
        Nat.add_zero, List.mem_cons, true_or]
    | succ j =>
      have hj2 : j < l.length := by simpa using hj
      have hne2 : (b :: l).getD j d ≠ l.getD j d := hne
      have hrec := ih (k, b) (k + 1) j hj2 hne2
      rw [show k + 1 + j = k + (j + 1) by omega] at hrec
      split
      · exact List.mem_cons_of_mem _ hrec
      · exact hrec

/-- A position after the first that is not a run start carries the cell of the position
before it. -/
theorem cell_eq_of_not_mem_pivot_candidates {n : ℕ} (cell_id : List (cell_t n))
    (perm : List ℕ) (k : ℕ) (hk : k + 1 < perm.length)
    (hnot : k + 1 ∉ pivot_candidates cell_id perm) :
    cell_id.getD (perm.getD (k + 1) 0) 0 = cell_id.getD (perm.getD k 0) 0 := by
  cases perm with
  | nil => simp at hk
  | cons p perm =>
    by_contra hne
    apply hnot
    have hk2 : k < (perm.map fun i => cell_id.getD i 0).length := by simpa using hk
    have hget : ∀ (l : List ℕ) (j : ℕ), j < l.length →
        (l.map fun i => cell_id.getD i 0).getD j 0 = cell_id.getD (l.getD j 0) 0 := by
      intro l j hj
      rw [List.getD_eq_getElem _ _ (by simpa using hj), List.getElem_map,
        List.getD_eq_getElem _ _ hj]
    have hmem := mem_adjacent_skip_enumFrom (0 : cell_t n)
      (perm.map fun i => cell_id.getD i 0) (0, cell_id.getD p 0) 1 k hk2 (by
        have h1 : (cell_id.getD p 0 :: perm.map fun i => cell_id.getD i 0)
            = (p :: perm).map fun i => cell_id.getD i 0 := rfl
        show (cell_id.getD p 0 :: perm.map fun i => cell_id.getD i 0).getD k 0
          ≠ (perm.map fun i => cell_id.getD i 0).getD k 0
        rw [h1, hget (p :: perm) k (by omega), hget perm k (by simpa using hk)]
        exact fun h => hne h.symm)
    rw [Nat.add_comm 1 k] at hmem
    exact List.mem_cons_of_mem _ hmem

namespace PointGrid

variable {n : ℕ}

theorem built_pivots_le {position : List (vector_t n)} {lengthscale : ℚ} {g : PointGrid n}
    (h : Built position lengthscale g) (b : ℕ) (hb : b ≤ g.n_buckets) :
    g.pivots.getD b 0 ≤ g.n_points := by
  have hl := built_pivots_length h
  rw [List.getD_eq_getElem _ _ (by omega : b < g.pivots.length)]
  have hsub : ∀ x ∈ g.pivots, x ≤ g.n_points := by
    rw [h.pivots_eq]
    intro x hx
    rcases List.mem_append.mp hx with hm | hm
    · have := pivot_candidates_lt _ _ _ hm
      rw [built_permutation_length h] at this
      omega
    · rw [List.mem_singleton.mp hm]
  exact hsub _ (List.getElem_mem _)

/-- Nothing lies strictly between two consecutive pivots. -/
theorem built_not_mem_pivots_between {position : List (vector_t n)} {lengthscale : ℚ}
    {g : PointGrid n} (h : Built position lengthscale g) (b : ℕ) (hb : b < g.n_buckets)
    (i : ℕ) (h1 : g.pivots.getD b 0 < i) (h2 : i < g.pivots.getD (b + 1) 0) :
    i ∉ g.pivots := by
  have hl := built_pivots_length h
  have hs := List.pairwise_iff_getElem.mp (built_pivots_sorted h)
  rw [List.getD_eq_getElem _ _ (by omega : b < g.pivots.length)] at h1
  rw [List.getD_eq_getElem _ _ (by omega : b + 1 < g.pivots.length)] at h2
  intro hmem
  obtain ⟨j, hj, rfl⟩ := List.getElem_of_mem hmem
  rcases Nat.lt_trichotomy j b with hjb | rfl | hjb
  · have := hs j b hj (by omega) hjb
    omega
  · omega
  · rcases Nat.eq_or_lt_of_le (Nat.succ_le_of_lt hjb) with heq | hlt
    · have : g.pivots[j] = g.pivots[b + 1] := by congr 1; exact heq.symm
      omega
    · have := hs (b + 1) j (by omega) hj hlt
      omega

/-- Every position of a bucket carries the cell of the bucket. -/
theorem built_cell_of_bucket {position : List (vector_t n)} {lengthscale : ℚ}
    {g : PointGrid n} (h : Built position lengthscale g) (b : ℕ) (hb : b < g.n_buckets)
    (i : ℕ) (h1 : g.pivots.getD b 0 ≤ i) (h2 : i < g.pivots.getD (b + 1) 0) :
    g.cell_id.getD (g.permutation.getD i 0) 0 = g.cell_from_bucket b := by
  induction i with
  | zero =>
    have : g.pivots.getD b 0 = 0 := by omega
    unfold cell_from_bucket
    rw [this]
  | succ k ih =>
    rcases Nat.eq_or_lt_of_le h1 with heq | hlt
    · unfold cell_from_bucket
      rw [heq]
    · have hle := built_pivots_le h (b + 1) (by omega)
      have hnp := built_not_mem_pivots_between h b hb (k + 1) hlt h2
      have hnc : k + 1 ∉ pivot_candidates g.cell_id g.permutation := by
        intro hc
        apply hnp
        rw [h.pivots_eq]
        exact List.mem_append_left _ hc
      rw [cell_eq_of_not_mem_pivot_candidates g.cell_id g.permutation k
        (by rw [built_permutation_length h]; omega) hnc]
      exact ih (by omega) (by omega)

theorem built_bucket_from_cell {position : List (vector_t n)} {lengthscale : ℚ}
    {g : PointGrid n} (h : Built position lengthscale g) (cell : cell_t n) :
    g.bucket_from_cell.get cell = -1 ∨
      ∃ b, b < g.n_buckets ∧ g.bucket_from_cell.get cell = (b : ℤ) ∧
        g.cell_from_bucket b = cell := by
  unfold HashMap.get
  split
  · rename_i e he
    right
    have hmem := List.mem_of_find?_eq_some he
    have hp := List.find?_some he
    rw [h.bucket_from_cell_eq, List.mem_map] at hmem
    obtain ⟨b, hb, rfl⟩ := hmem
    rw [irange_zero, List.mem_range] at hb
    exact ⟨b, hb, rfl, of_decide_eq_true hp⟩
  · exact Or.inl rfl

/-- The vertices found for a cell are valid points of that cell. -/
theorem built_mem_vertices_from_cell {position : List (vector_t n)} {lengthscale : ℚ}
    {g : PointGrid n} (h : Built position lengthscale g) (cell : cell_t n) (v : ℕ)
    (hv : v ∈ g.vertices_from_cell cell) :
    v < g.n_points ∧ g.cell_id.getD v 0 = cell := by
  unfold vertices_from_cell indices_from_cell at hv
  rcases built_bucket_from_cell h cell with hneg | ⟨b, hb, hget, hcell⟩
  · rw [hneg] at hv
    simp [indices_from_bucket, irange] at hv
  · rw [hget, indices_from_bucket_natCast, List.mem_map] at hv
    obtain ⟨i, hi, rfl⟩ := hv
    rw [mem_irange] at hi
    have hle := built_pivots_le h (b + 1) (by omega)
    have hlen := built_permutation_length h
    refine ⟨?_, ?_⟩
    · have hperm : g.permutation.Perm (List.range g.n_points) := by
        rw [h.permutation_eq]; exact init_permutation_perm _ _ _
      have : g.permutation.getD i 0 ∈ g.permutation := by
        rw [List.getD_eq_getElem _ _ (by omega)]; exact List.getElem_mem _
      exact List.mem_range.mp (hperm.mem_iff.mp this)
    · rw [built_cell_of_bucket h b hb i hi.1 hi.2, hcell]

theorem built_vertices_from_cell_nodup {position : List (vector_t n)} {lengthscale : ℚ}
    {g : PointGrid n} (h : Built position lengthscale g) (cell : cell_t n) :
    (g.vertices_from_cell cell).Nodup := by
  unfold vertices_from_cell indices_from_cell
  rcases built_bucket_from_cell h cell with hneg | ⟨b, hb, hget, -⟩
  · rw [hneg]
    simp [indices_from_bucket, irange]
  · rw [hget, indices_from_bucket_natCast]
    have hle := built_pivots_le h (b + 1) (by omega)
    have hlen := built_permutation_length h
    have hnd : g.permutation.Nodup := by
      have hperm : g.permutation.Perm (List.range g.n_points) := by
        rw [h.permutation_eq]; exact init_permutation_perm _ _ _
      exact hperm.nodup_iff.mpr (List.nodup_range _)
    refine List.Nodup.map_on ?_ (List.nodup_range' _ _)
    intro x hx y hy hxy
    have hx2 := (mem_irange.mp hx).2
    have hy2 := (mem_irange.mp hy).2
    rw [List.getD_eq_getElem _ _ (by omega : x < g.permutation.length),
      List.getD_eq_getElem _ _ (by omega : y < g.permutation.length)] at hxy
    exact (List.Nodup.getElem_inj_iff hnd).mp hxy

end PointGrid

end InteractionMap

/-! ## The accelerated box query -/

namespace InteractionMap

theorem irange_fixed_nodup (a b : ℤ) : (irange_fixed a b).Nodup := by
  unfold irange_fixed
  have hcoe : ((List.range (b - a).toNat : List ℕ) : List ℤ)
      = (List.range (b - a).toNat).map fun k : ℕ => (k : ℤ) := by
    simp [Functor.map, List.map_eq_flatMap]
  rw [hcoe, List.map_map]
  have hinj : Function.Injective ((fun k : ℤ => a + k) ∘ fun k : ℕ => (k : ℤ)) :=
    fun x y h => by simpa using h
  exact (List.nodup_range _).map hinj

namespace PointGrid

theorem mem_box_query (g : PointGrid 3) (box : box_t 3) (v : ℕ)
    (hv : v ∈ g.for_each_vertex_in_bounding_box box) :
    (¬ ∃ i, max (transform g.extents g.lengthscale box.row0 i) 0
        > min (transform g.extents g.lengthscale box.row1 i) (g.shape i : ℚ)) ∧
    g.in_box box v = true ∧ ∃ x y z, v ∈ g.vertices_from_cell ![x, y, z] := by
  unfold for_each_vertex_in_bounding_box at hv
  simp only at hv
  split at hv
  · exact absurd hv (List.not_mem_nil _)
  · rename_i hbail
    simp only [List.mem_flatMap, List.mem_filter] at hv
    obtain ⟨x, -, y, -, z, -, hmem, hin⟩ := hv
    exact ⟨of_decide_eq_false (Bool.not_eq_true _ ▸ hbail), hin, x, y, z, hmem⟩

theorem built_box_query_nodup {position : List (vector_t 3)} {lengthscale : ℚ}
    {g : PointGrid 3} (h : Built position lengthscale g) (box : box_t 3) :
    (g.for_each_vertex_in_bounding_box box).Nodup := by
  unfold for_each_vertex_in_bounding_box
  simp only
  split
  · exact List.nodup_nil
  · refine Grid.PointGrid.nodup_flatMap_of_tag _ _ (fun v => g.cell_id.getD v 0 0) id
      (irange_fixed_nodup _ _) (fun _ _ _ _ e => e) (fun x _ => ?_) (fun x _ v hv => ?_)
    · refine Grid.PointGrid.nodup_flatMap_of_tag _ _ (fun v => g.cell_id.getD v 0 1) id
        (irange_fixed_nodup _ _) (fun _ _ _ _ e => e) (fun y _ => ?_) (fun y _ v hv => ?_)
      · refine Grid.PointGrid.nodup_flatMap_of_tag _ _ (fun v => g.cell_id.getD v 0 2) id
          (irange_fixed_nodup _ _) (fun _ _ _ _ e => e) (fun z _ => ?_) (fun z _ v hv => ?_)
        · exact (built_vertices_from_cell_nodup h _).filter _
        · show g.cell_id.getD v 0 2 = z
          rw [(built_mem_vertices_from_cell h _ v (List.mem_filter.mp hv).1).2]
          rfl
      · obtain ⟨z, -, hv⟩ := List.mem_flatMap.mp hv
        show g.cell_id.getD v 0 1 = y
        rw [(built_mem_vertices_from_cell h _ v (List.mem_filter.mp hv).1).2]
        rfl
    · obtain ⟨y, -, hv⟩ := List.mem_flatMap.mp hv
      obtain ⟨z, -, hv⟩ := List.mem_flatMap.mp hv
      show g.cell_id.getD v 0 0 = x
      rw [(built_mem_vertices_from_cell h _ v (List.mem_filter.mp hv).1).2]
      rfl

end PointGrid

/-- C17: on every constructed grid and for every box, each vertex that
`for_each_vertex_in_bounding_box` hands to the callback is a valid point index whose
position satisfies `box.min <= position[v] <= box.max` on every axis of the box as given,
and no index is handed over twice. -/
theorem C17_box_query_sound_and_unique (position : List (vector_t 3)) (lengthscale : ℚ)
    (g : PointGrid 3) (h : PointGrid.construct position lengthscale = .ok g) (box : box_t 3) :
    (∀ v ∈ g.for_each_vertex_in_bounding_box box, v < g.n_points ∧
      ∀ i, box.row0 i ≤ g.position.getD v 0 i ∧ g.position.getD v 0 i ≤ box.row1 i) ∧
    (g.for_each_vertex_in_bounding_box box).Nodup := by
  have hb := PointGrid.built_of_construct h
  refine ⟨fun v hv => ?_, PointGrid.built_box_query_nodup hb box⟩
  obtain ⟨-, hin, x, y, z, hmem⟩ := PointGrid.mem_box_query g box v hv
  exact ⟨(PointGrid.built_mem_vertices_from_cell hb _ v hmem).1,
    (PointGrid.in_box_iff g box v).mp hin⟩

/-- C17 on the grid over `sample_points` and the box `flat_box`. -/
theorem C17_box_query_sound_and_unique_witness :
    PointGrid.construct sample_points 1 = .ok sample_grid ∧
    (∀ v ∈ sample_grid.for_each_vertex_in_bounding_box flat_box, v < sample_grid.n_points ∧
      ∀ i, flat_box.row0 i ≤ sample_grid.position.getD v 0 i ∧
        sample_grid.position.getD v 0 i ≤ flat_box.row1 i) ∧
    (sample_grid.for_each_vertex_in_bounding_box flat_box).Nodup :=
  ⟨sample_grid_constructed,
    C17_box_query_sound_and_unique sample_points 1 sample_grid sample_grid_constructed flat_box⟩

/-- C18 (amended): on every constructed grid, a box whose intersection with the extents is
empty (on some axis the larger of the two lower bounds exceeds the smaller of the two upper
bounds), or for which the bail test `max(lmin, 0) > min(lmax, shape)` holds on some axis,
has no index handed to the callback by `for_each_vertex_in_bounding_box`. -/
theorem C18_empty_intersection_no_output (position : List (vector_t 3)) (lengthscale : ℚ)
    (g : PointGrid 3) (h : PointGrid.construct position lengthscale = .ok g) (box : box_t 3)
    (hempty : (∃ i, max (box.row0 i) (g.extents.row0 i) > min (box.row1 i) (g.extents.row1 i)) ∨
      ∃ i, max (transform g.extents g.lengthscale box.row0 i) 0
        > min (transform g.extents g.lengthscale box.row1 i) (g.shape i : ℚ)) :
    g.for_each_vertex_in_bounding_box box = [] := by
  have hb := PointGrid.built_of_construct h
  rw [List.eq_nil_iff_forall_not_mem]
  intro v hv
  obtain ⟨hnb, hin, x, y, z, hmem⟩ := PointGrid.mem_box_query g box v hv
  rcases hempty with ⟨i, hi⟩ | hbail
  · have hlt := (PointGrid.built_mem_vertices_from_cell hb _ v hmem).1
    have hext := PointGrid.built_position_bounds hb v hlt i
    have hbox := (PointGrid.in_box_iff g box v).mp hin i
    have h1 : max (box.row0 i) (g.extents.row0 i) ≤ g.position.getD v 0 i :=
      max_le hbox.1 hext.1
    have h2 : g.position.getD v 0 i ≤ min (box.row1 i) (g.extents.row1 i) :=
      le_min hbox.2 hext.2
    exact absurd (le_trans h1 h2) (not_le.mpr hi)
  · exact hnb hbail

/-- C18 (amended) on the grid over `sample_points` and a box beyond the extents. -/
theorem C18_empty_intersection_no_output_witness :
    PointGrid.construct sample_points 1 = .ok sample_grid ∧
    (∃ i, max ((⟨![11, 0, 0], ![12, 1, 0]⟩ : box_t 3).row0 i) (sample_grid.extents.row0 i)
      > min ((⟨![11, 0, 0], ![12, 1, 0]⟩ : box_t 3).row1 i) (sample_grid.extents.row1 i)) ∧
    sample_grid.for_each_vertex_in_bounding_box ⟨![11, 0, 0], ![12, 1, 0]⟩ = [] :=
  ⟨sample_grid_constructed, ⟨0, by with_unfolding_all decide⟩,
    C18_empty_intersection_no_output sample_points 1 sample_grid sample_grid_constructed
      ⟨![11, 0, 0], ![12, 1, 0]⟩ (Or.inl ⟨0, by with_unfolding_all decide⟩)⟩

/-- C18 as stated fails on the grid over `sample_points`: the intersection of `flat_box`
with the extents has zero width along the third axis, yet the query hands `0, 1, 2` to the
callback. -/
theorem C18_counterexample :
    PointGrid.construct sample_points 1 = .ok sample_grid ∧
    max (flat_box.row0 2) (sample_grid.extents.row0 2)
      = min (flat_box.row1 2) (sample_grid.extents.row1 2) ∧
    sample_grid.for_each_vertex_in_bounding_box flat_box = [0, 1, 2] := by
  refine ⟨sample_grid_constructed, ?_⟩
  with_unfolding_all decide

end InteractionMap

/-! ## Cells against the intended shape -/

namespace InteractionMap

theorem cast_fixed_of_nonneg {x : ℚ} (hx : 0 ≤ x) : cast_fixed x = ⌊x⌋ := by
  unfold cast_fixed
  rw [if_pos hx]

/-- With a positive lengthscale every point has non-negative local coordinates and a
non-negative cell coordinate below `truncate((extents.max - extents.min) / lengthscale) + 1`,
which is at least `1`: the bounds hold for the shape without the second subtraction of the
origin. -/
theorem cell_within_intended_shape {n : ℕ} (position : List (vector_t n)) (lengthscale : ℚ)
    (hls : 0 < lengthscale) (p : vector_t n) (hp : p ∈ position) (i : Fin n) :
    0 ≤ transform (init_extents position) lengthscale p i ∧
    0 ≤ cell_from_position (init_extents position) lengthscale p i ∧
    cell_from_position (init_extents position) lengthscale p i
      < cast_fixed (((init_extents position).row1 i - (init_extents position).row0 i)
          / lengthscale) + 1 ∧
    1 ≤ cast_fixed (((init_extents position).row1 i - (init_extents position).row0 i)
          / lengthscale) + 1 := by
  obtain ⟨h1, h2⟩ := init_extents_bounds position p hp i
  have hx : 0 ≤ (p i - (init_extents position).row0 i) / lengthscale :=
    div_nonneg (by linarith) (le_of_lt hls)
  have hxy : (p i - (init_extents position).row0 i) / lengthscale
      ≤ ((init_extents position).row1 i - (init_extents position).row0 i) / lengthscale :=
    div_le_div_of_nonneg_right (by linarith) (le_of_lt hls)
  have hy : 0 ≤ ((init_extents position).row1 i - (init_extents position).row0 i)
      / lengthscale := le_trans hx hxy
  have hcell : cell_from_position (init_extents position) lengthscale p i
      = ⌊(p i - (init_extents position).row0 i) / lengthscale⌋ := cast_fixed_of_nonneg hx
  rw [hcell, cast_fixed_of_nonneg hy]
  refine ⟨hx, Int.floor_nonneg.mpr hx, ?_, ?_⟩
  · exact Int.lt_add_one_iff.mpr (Int.floor_mono hxy)
  · have := Int.floor_nonneg.mpr hy
    omega

end InteractionMap

/-! ## The update path on the store -/

namespace Grid

namespace PointGridRef

variable {n : ℕ}

end PointGridRef

open PointGridRef

end Grid
